import Mathlib

/-!
# HyperCache radix tree: a shallow embedding of `src/radix/radix.cpp`

The C++ tree is a heap of `RadixTreeNode`s linked by raw pointers and mutated in
place.  Here a node is a value, a pointer to a node is the list of child indices
leading to it from the dummy root, and an in-place write through a pointer is a
functional update at that path (`modifyAt`).  The reader/writer lock is not part
of the tree value; the walker keeps its `unlocked` flag.

Conventions used throughout:
* a `ByteSlice` (`value`, `length`) is the list of its bytes;
* `memcmp(&key.value[i], c.value, c.length) == 0` under the guard
  `key.length >= i + c.length` is `(key.drop i).take c.length = c`;
* `malloc`/`free` are not modelled, so a node that the code frees but leaves
  linked from its parent is still visible in the resulting tree value; a call
  that reads a node after freeing it has no result (`delete_prefix`).
-/

namespace HyperCache

/-- A byte slice of `byteslice.h`: the bytes `value[0 .. length)`. -/
abbrev ByteSlice := List UInt8

/-- Bytes of an ASCII string, used to write keys and values in examples. -/
def bytes (s : String) : ByteSlice := s.toList.map (fun c => c.toNat.toUInt8)

/-- The node of `radix.hpp`: `key`, nullable `content`, and the `children` array
(`children_len` is the length of the list). -/
inductive RadixTreeNode where
  | mk (key : ByteSlice) (content : Option ByteSlice) (children : List RadixTreeNode)

namespace RadixTreeNode

/-- Field `key`. -/
def key : RadixTreeNode → ByteSlice
  | mk k _ _ => k

/-- Field `content` (`none` is the null pointer). -/
def content : RadixTreeNode → Option ByteSlice
  | mk _ c _ => c

/-- Field `children`, with `children_len = children.length`. -/
def children : RadixTreeNode → List RadixTreeNode
  | mk _ _ cs => cs

end RadixTreeNode

/-- The tree object of `radix.hpp`: the dummy root node (the lock is left out). -/
structure RadixTreeRoot where
  node : RadixTreeNode

/-- Constructor `RadixTreeRoot::RadixTreeRoot()`: a `calloc`ed dummy root. -/
def RadixTreeRoot.empty : RadixTreeRoot := ⟨.mk [] none []⟩

/-- Result of the node search: `node` is the pointer, written as the path of
child indices from the dummy root. -/
structure RadixTreeNodeResult where
  key_index : Nat
  node : List Nat
  deriving DecidableEq

/-- The node a path points to (`none` if the path leaves the tree). -/
def nodeAt : RadixTreeNode → List Nat → Option RadixTreeNode
  | n, [] => some n
  | .mk _ _ cs, i :: p =>
    match cs[i]? with
    | none => none
    | some c => nodeAt c p

/-- In-place write through a pointer: apply `f` to the node at the path. -/
def modifyAt (f : RadixTreeNode → RadixTreeNode) : RadixTreeNode → List Nat → RadixTreeNode
  | n, [] => f n
  | .mk k c cs, i :: p =>
    match cs[i]? with
    | none => .mk k c cs
    | some ch => .mk k c (cs.set i (modifyAt f ch p))

/-- The comparison `memcmp(&key.value[key_index], child_key.value, child_key.length) == 0`. -/
def memcmp_eq (key : ByteSlice) (key_index : Nat) (child_key : ByteSlice) : Bool :=
  (key.drop key_index).take child_key.length == child_key

/-- The scanning loop `for (; y < key.length; y++) { if (x == child_key.length) break;
if (key.value[y] != child_key.value[x]) break; x++; }` run on the rest of the key:
the number of iterations completed, i.e. `y - key_index` at loop exit. -/
def common_len : ByteSlice → ByteSlice → Nat
  | k :: ks, c :: cs => if k != c then 0 else common_len ks cs + 1
  | _, _ => 0

mutual
/-- Label `get_loop_start` of `un_thread_safe_get_node` with `current_node = n`. -/
def get_node_from (key : ByteSlice) ( allow_node_prefix : Bool) :
    RadixTreeNode → Nat → RadixTreeNodeResult
  | .mk _ _ cs, key_index =>
    if key_index ≥ key.length then ⟨key_index, []⟩
    else get_node_children key allow_node_prefix cs 0 key_index
/-- The `for` loop over `current_node->children`, from child number `i` on. -/
def get_node_children (key : ByteSlice) ( allow_node_prefix : Bool) :
    List RadixTreeNode → Nat → Nat → RadixTreeNodeResult
  | [], _, key_index => ⟨key_index, []⟩
  | child :: rest, i, key_index =>
    if key.length ≥ key_index + child.key.length then
      if memcmp_eq key key_index child.key then
        let r := get_node_from key allow_node_prefix child (key_index + child.key.length)
        ⟨r.key_index, i :: r.node⟩
      else get_node_children key allow_node_prefix rest (i + 1) key_index
    else if key_index + child.key.length > key.length ∧ allow_node_prefix = true then
      if key_index + common_len (key.drop key_index) child.key = key.length then
        let r := get_node_from key allow_node_prefix child (key_index + child.key.length)
        ⟨r.key_index, i :: r.node⟩
      else get_node_children key allow_node_prefix rest (i + 1) key_index
    else get_node_children key allow_node_prefix rest (i + 1) key_index
end

/-- Method `RadixTreeRoot::un_thread_safe_get_node`. -/
def un_thread_safe_get_node (t : RadixTreeRoot) (key : ByteSlice) ( allow_node_prefix : Bool) :
    RadixTreeNodeResult :=
  if key.length = 0 then ⟨0, []⟩
  else get_node_from key allow_node_prefix t.node 0

/-- Dereference of `result.node->content`. -/
def contentAt (t : RadixTreeRoot) (p : List Nat) : Option ByteSlice :=
  match nodeAt t.node p with
  | none => none
  | some n => n.content

/-- Method `RadixTreeRoot::get`: `none` is the null pointer, `some v` a copy of the value. -/
def get (t : RadixTreeRoot) (key : ByteSlice) : Option ByteSlice :=
  let result := un_thread_safe_get_node t key false
  if result.key_index ≠ key.length then none
  else contentAt t result.node

/-- Function `split_node`, as the new state of `*node` (the returned pointer is
the first child of the result).  `other_child = none` is the null pointer.
`remainder_len` is `node->key.length - split_index`; every caller passes
`split_index ≤ node->key.length`. -/
def split_node (split_index : Nat) (node : RadixTreeNode) (other_child : Option RadixTreeNode) :
    RadixTreeNode :=
  let init_node_key := node.key
  let key_pre_split := init_node_key.take split_index
  let remainder_len := node.key.length - split_index
  let key_remainder := (init_node_key.drop split_index).take remainder_len
  let new_child := RadixTreeNode.mk key_remainder node.content node.children
  let children :=
    match other_child with
    | some o => [new_child, o]
    | none => [new_child]
  .mk key_pre_split none children

/-- The body of the `for` loop of `set` that looks for a child to break down, run
on the children from some position on: `none` if no child has anything in
common with the key (the loop falls through), else the children array after the
split of the first such child. -/
def set_break_down (key : ByteSlice) (key_index : Nat) (value : ByteSlice) :
    List RadixTreeNode → Option (List RadixTreeNode)
  | [] => none
  | child :: rest =>
    let common := common_len (key.drop key_index) child.key
    if common ≠ 0 then
      let other_child : Option RadixTreeNode :=
        if common ≠ key.length then
          some (.mk ((key.drop common).take (key.length - common)) (some value) [])
        else none
      let child1 := split_node common child other_child
      let child2 :=
        if common = key.length then RadixTreeNode.mk child1.key (some value) child1.children
        else child1
      some (child2 :: rest)
    else
      match set_break_down key key_index value rest with
      | none => none
      | some rest1 => some (child :: rest1)

/-- The writes `set` performs on `*result.node` when the match is not strict. -/
def set_at_node (key : ByteSlice) (key_index : Nat) (value : ByteSlice) (n : RadixTreeNode) :
    RadixTreeNode :=
  match set_break_down key key_index value n.children with
  | some cs => .mk n.key n.content cs
  | none =>
    let remainder_len := key.length - key_index
    let remainder_chunk := (key.drop key_index).take remainder_len
    .mk n.key n.content (n.children ++ [.mk remainder_chunk (some value) []])

/-- Method `RadixTreeRoot::set`: the tree after the call and the returned flag. -/
def set (t : RadixTreeRoot) (key value : ByteSlice) : RadixTreeRoot × Bool :=
  let result := un_thread_safe_get_node t key false
  if result.key_index = key.length then
    if (contentAt t result.node).isSome then
      (⟨modifyAt (fun n => .mk n.key (some value) n.children) t.node result.node⟩, true)
    else
      (⟨modifyAt (fun n => .mk n.key (some value) n.children) t.node result.node⟩, false)
  else
    (⟨modifyAt (set_at_node key result.key_index value) t.node result.node⟩, false)

/-- Helper `set_with_stack_value`: copies the value bytes and calls `set`. -/
def set_with_stack_value (t : RadixTreeRoot) (key value : ByteSlice) : RadixTreeRoot × Bool :=
  set t key value

/-- A sequence of `set` calls, applied left to right. -/
def setAll (t : RadixTreeRoot) : List (ByteSlice × ByteSlice) → RadixTreeRoot
  | [] => t
  | (k, v) :: kvs => setAll (set t k v).1 kvs

/-- Function `merge_radix_branches`, as the new state of `*parent`. -/
def merge_radix_branches (parent child : RadixTreeNode) : RadixTreeNode :=
  .mk (parent.key ++ child.key) child.content child.children

/-- Function `un_thread_safe_cut_branch(root, parent, branch)`, as the new state of
`*parent`, where `branch` is `parent->children[i]` and `parent_is_root` is the
pointer test `parent == root`.  Children of one parent are distinct pointers, so
`*parent->children == branch` is `i = 0` and the copy loop that skips `branch`
erases position `i`. -/
def un_thread_safe_cut_branch (parent_is_root : Bool) (i : Nat) (parent : RadixTreeNode) :
    RadixTreeNode :=
  match parent.children[i]? with
  | none => parent
  | some branch =>
    if branch.children.length = 0 then
      if parent.children.length = 2 ∧ parent.content.isNone ∧ parent_is_root = false then
        let other_child := if i = 0 then parent.children[1]? else parent.children[0]?
        match other_child with
        | none => parent
        | some o => merge_radix_branches parent o
      else .mk parent.key parent.content (parent.children.eraseIdx i)
    else
      .mk parent.key parent.content (parent.children.set i (.mk branch.key none branch.children))

mutual
/-- One round of the outer `for (;;)` of `delete_key` with `current_node = n`:
the pointer pair (`current_node`, index of `child`) handed to the cut, or `none`
when the method returns false. -/
def delete_key_from (key : ByteSlice) : RadixTreeNode → Nat → Option (List Nat × Nat)
  | .mk _ _ cs, key_index => delete_key_children key cs 0 key_index
/-- The inner `for` loop of `delete_key` over the children from number `i` on. -/
def delete_key_children (key : ByteSlice) :
    List RadixTreeNode → Nat → Nat → Option (List Nat × Nat)
  | [], _, _ => none
  | child :: rest, i, key_index =>
    if key.length ≥ key_index + child.key.length then
      if memcmp_eq key key_index child.key then
        if key_index + child.key.length = key.length then some ([], i)
        else
          match delete_key_from key child (key_index + child.key.length) with
          | none => none
          | some (p, j) => some (i :: p, j)
      else delete_key_children key rest (i + 1) key_index
    else delete_key_children key rest (i + 1) key_index
end

/-- Method `RadixTreeRoot::delete_key`: the tree after the call and the returned flag. -/
def delete_key (t : RadixTreeRoot) (key : ByteSlice) : RadixTreeRoot × Bool :=
  if key.length = 0 then
    let node_exists := t.node.content.isSome
    if node_exists then (⟨.mk t.node.key none t.node.children⟩, node_exists)
    else (t, node_exists)
  else
    match delete_key_from key t.node 0 with
    | none => (t, false)
    | some (p, i) => (⟨modifyAt (un_thread_safe_cut_branch p.isEmpty i) t.node p⟩, true)

mutual
/-- Number of nodes in a subtree, the node itself included. -/
def countNode : RadixTreeNode → Nat
  | .mk _ _ cs => countNodes cs + 1
/-- Number of nodes in a list of subtrees. -/
def countNodes : List RadixTreeNode → Nat
  | [] => 0
  | c :: cs => countNode c + countNodes cs
end

/-- Termination measure of the loop of `free_node_children`. -/
def stackWeight : List (List RadixTreeNode) → Nat
  | [] => 0
  | f :: fs => 2 * countNodes f + 1 + stackWeight fs

/-- The `while (!info_stack.empty())` loop of `free_node_children`.  A frame
`{index, len, nodes}` is kept as the entries `nodes[index .. len)` still to be
visited; the back of the deque is the head of the list. -/
def free_node_children_loop : List (List RadixTreeNode) → Nat → Nat
  | [], killed_children => killed_children
  | [] :: info_stack, killed_children => free_node_children_loop info_stack killed_children
  | (next :: nodes) :: info_stack, killed_children =>
    free_node_children_loop (next.children :: nodes :: info_stack) (killed_children + 1)
termination_by info_stack => stackWeight info_stack
decreasing_by
  all_goals simp_wf
  · simp [stackWeight, countNodes]
  · cases next with
    | mk k c cs => simp [stackWeight, countNodes, countNode, RadixTreeNode.children]; omega

/-- Function `free_node_children`: the number of nodes released. -/
def free_node_children (nodes : List RadixTreeNode) : Nat :=
  free_node_children_loop [nodes] 0

mutual
/-- One round of the outer `for (;;)` of `delete_prefix` with `current_node = n`:
the pointer pair (`current_node`, index of `child`) of the match, or `none` when
the method returns 0. -/
def delete_prefix_from (key : ByteSlice) : RadixTreeNode → Nat → Option (List Nat × Nat)
  | .mk _ _ cs, key_index => delete_prefix_children key cs 0 key_index
/-- The inner `for` loop of `delete_prefix` over the children from number `i` on. -/
def delete_prefix_children (key : ByteSlice) :
    List RadixTreeNode → Nat → Nat → Option (List Nat × Nat)
  | [], _, _ => none
  | child :: rest, i, key_index =>
    if key.length ≥ key_index + child.key.length then
      if memcmp_eq key key_index child.key then
        if key_index + child.key.length = key.length then some ([], i)
        else
          match delete_prefix_from key child (key_index + child.key.length) with
          | none => none
          | some (p, j) => some (i :: p, j)
      else delete_prefix_children key rest (i + 1) key_index
    else if key_index + child.key.length > key.length then
      if key_index + common_len (key.drop key_index) child.key = key.length then some ([], i)
      else delete_prefix_children key rest (i + 1) key_index
    else delete_prefix_children key rest (i + 1) key_index
end

/-- Method `RadixTreeRoot::delete_prefix`: the tree after the call and the
returned count, or `none` when the call has no defined result.  After the cut
the method reads `child->children` and `child->children_len`, frees `child` and
releases the subtree; the parent's child array is only what the cut made of it,
so a matched node that has children stays in its parent's array.  When the
matched node has no children, `un_thread_safe_cut_branch` has already freed it:
the method then reads the two fields from released memory and frees the node a
second time, and the result is `none`. -/
def delete_prefix (t : RadixTreeRoot) (key : ByteSlice) : Option (RadixTreeRoot × Nat) :=
  if key.length = 0 then
    let children := t.node.children
    some (⟨.mk t.node.key t.node.content []⟩, free_node_children children)
  else
    match delete_prefix_from key t.node 0 with
    | none => some (t, 0)
    | some (p, i) =>
      match nodeAt t.node (p ++ [i]) with
      | none => none
      | some child =>
        if child.children.length = 0 then none
        else
          some (⟨modifyAt (un_thread_safe_cut_branch p.isEmpty i) t.node p⟩,
            1 + free_node_children child.children)

/-- Method `RadixTreeRoot::free_tree`: a fresh `calloc`ed dummy root replaces the old one. -/
def free_tree (_t : RadixTreeRoot) : RadixTreeRoot := ⟨.mk [] none []⟩

/-- Walk result of `radix.hpp`: a copied key and a copied value. -/
structure RadixTreeWalkValue where
  key : ByteSlice
  value : ByteSlice
  deriving DecidableEq

/-- Walker state of `radix.hpp`.  The three deques are kept with the back of the
deque at the head of the list.  The lock pointer is left out; `unlocked` records
whether the walker has given up its shared lock.

`pop_back` on the deque `nodes` only moves its end: the popped pointer stays in
the buffer until a later `push_back` writes over it.  `nodes_past_back` is the
content of the buffer slots after the back of `nodes`, the slot next to the back
first; `get_current_key` reads them.  A slot that was never written is taken to
hold a null pointer. -/
structure RadixTreeBranchWalker where
  childs_value_read : Bool
  unlocked : Bool
  nodes : List RadixTreeNode
  key_chunks : List ByteSlice
  child_indexes : List Nat
  nodes_past_back : List RadixTreeNode

namespace RadixTreeBranchWalker

/-- Method `add_node_child`.  `nodes.push_back` writes the slot after the back. -/
def add_node_child (w : RadixTreeBranchWalker) (node : RadixTreeNode) (key_chunk : ByteSlice) :
    RadixTreeBranchWalker :=
  { w with nodes := node :: w.nodes, key_chunks := key_chunk :: w.key_chunks,
           child_indexes := 0 :: w.child_indexes,
           nodes_past_back := w.nodes_past_back.tail }

/-- Method `remove_node_child`.  `nodes.pop_back` leaves the popped pointer in
its slot, which is now the slot after the back. -/
def remove_node_child (w : RadixTreeBranchWalker) : RadixTreeBranchWalker :=
  let child_indexes := w.child_indexes.tail
  { w with
    nodes := w.nodes.tail
    key_chunks := w.key_chunks.tail
    child_indexes :=
      match child_indexes with
      | [] => []
      | back :: rest => (back + 1) :: rest
    nodes_past_back := w.nodes.take 1 ++ w.nodes_past_back }

/-- Method `get_current_key`.  Both loops of the source start at `nodes.begin()`
and advance the iterator until it reads a null entry; they have no test for the
end of the deque and no null entry is ever pushed.  So they concatenate the keys
of the nodes on the stack, from the front of the deque to its back, and go on
with the keys of the popped nodes still lying in the slots after the back, up to
the first slot that was never written.  `key_chunks` is never read. -/
def get_current_key (w : RadixTreeBranchWalker) : ByteSlice :=
  w.nodes_past_back.foldl (fun data n => data ++ n.key)
    (w.nodes.foldr (fun n data => data ++ n.key) [])

/-- Constructor `RadixTreeBranchWalker(node, full_key, key_chunk, lock)`; `none`
is the null node.  The constructor never writes `unlocked` when the node is not
null, so the value the field starts with is the argument `unlocked_init`. -/
def create (node : Option RadixTreeNode) (full_key : ByteSlice) (key_chunk : Nat)
    (unlocked_init : Bool) : RadixTreeBranchWalker :=
  match node with
  | none =>
    { childs_value_read := false, unlocked := true, nodes := [], key_chunks := [],
      child_indexes := [], nodes_past_back := [] }
  | some n =>
    let a : ByteSlice :=
      if key_chunk > full_key.length then
        let remainder_len := key_chunk - full_key.length
        full_key ++ (n.key.drop remainder_len).take remainder_len
      else full_key.take key_chunk
    add_node_child
      { childs_value_read := false, unlocked := unlocked_init, nodes := [], key_chunks := [],
        child_indexes := [], nodes_past_back := [] } n a

/-- Method `next`, with `fuel` bounding the rounds of its `for (;;)`: `none` when
the bound is hit, else the returned pointer (`none` is the null pointer) and the
walker after the call. -/
def next : Nat → RadixTreeBranchWalker →
    Option (Option RadixTreeWalkValue × RadixTreeBranchWalker)
  | 0, _ => none
  | fuel + 1, w =>
    match w.nodes with
    | [] => some (none, { w with unlocked := true })
    | last_child :: _ =>
      match (if w.childs_value_read then none else last_child.content) with
      | some content =>
        some (some ⟨get_current_key w, content⟩, { w with childs_value_read := true })
      | none =>
        let w1 := { w with childs_value_read := true }
        let child_index := w1.child_indexes.headD 0
        if child_index = last_child.children.length then next fuel (remove_node_child w1)
        else
          match last_child.children[child_index]? with
          | none => none
          | some c => next fuel { add_node_child w1 c last_child.key with childs_value_read := false }

/-- Repeated `next` calls until the first null result, at most `calls` of them:
the values returned, or `none` if a call hits its bound or the walker is not
exhausted after `calls` calls. -/
def drain (fuel : Nat) : Nat → RadixTreeBranchWalker → Option (List RadixTreeWalkValue)
  | 0, _ => none
  | calls + 1, w =>
    match next fuel w with
    | none => none
    | some (none, _) => some []
    | some (some v, w1) =>
      match drain fuel calls w1 with
      | none => none
      | some vs => some (v :: vs)

end RadixTreeBranchWalker

/-- Method `RadixTreeRoot::walk_prefix`. -/
def walk_prefix (t : RadixTreeRoot) (key : ByteSlice) (unlocked_init : Bool) :
    RadixTreeBranchWalker :=
  let result := un_thread_safe_get_node t key true
  if key.length > result.key_index then RadixTreeBranchWalker.create none key 0 unlocked_init
  else RadixTreeBranchWalker.create (nodeAt t.node result.node) key result.key_index unlocked_init

/-! ## Notions used to state the properties -/

/-- Concatenation of the edge labels met on the way from `n` down a path (the
label of `n` itself is not part of it). -/
def pathKey : RadixTreeNode → List Nat → ByteSlice
  | _, [] => []
  | .mk _ _ cs, i :: p =>
    match cs[i]? with
    | none => []
    | some c => c.key ++ pathKey c p

mutual
/-- Pairs (root-path key, value) of the value-carrying nodes of a subtree, in
depth-first pre-order; `pre` is the root-path key of the subtree's top node. -/
def keyValuesNode (pre : ByteSlice) : RadixTreeNode → List (ByteSlice × ByteSlice)
  | .mk _ c cs =>
    match c with
    | some v => (pre, v) :: keyValuesChildren pre cs
    | none => keyValuesChildren pre cs
/-- The same for the subtrees of a list of children of a node with root-path key `pre`. -/
def keyValuesChildren (pre : ByteSlice) : List RadixTreeNode → List (ByteSlice × ByteSlice)
  | [] => []
  | c :: cs => keyValuesNode (pre ++ c.key) c ++ keyValuesChildren pre cs
end

/-- All (key, value) pairs stored in the tree, keys read off the edge labels. -/
def keyValues (t : RadixTreeRoot) : List (ByteSlice × ByteSlice) :=
  keyValuesNode [] t.node

/-- Result of the call number `n + 1` of `next` on a walker (`none`: a call hit its bound). -/
def nthNext (fuel : Nat) : Nat → RadixTreeBranchWalker → Option (Option RadixTreeWalkValue)
  | 0, w =>
    match w.next fuel with
    | none => none
    | some (r, _) => some r
  | n + 1, w =>
    match w.next fuel with
    | none => none
    | some (_, w1) => nthNext fuel n w1

/-- What a node search started at `n` with `ki` key bytes consumed guarantees of
its result `r`: the path stays inside the tree, `key_index` has advanced by the
length of the labels on the path, and these labels are a prefix of the rest of
the key or, in prefix mode only, the rest of the key is a prefix of them. -/
def SearchOk (key : ByteSlice) (allow : Bool) (n : RadixTreeNode) (ki : Nat)
    (r : RadixTreeNodeResult) : Prop :=
  (nodeAt n r.node).isSome = true ∧ r.key_index = ki + (pathKey n r.node).length ∧
    (pathKey n r.node <+: key.drop ki ∨ (allow = true ∧ key.drop ki <+: pathKey n r.node))

/-- Agreement between the walk of `delete_prefix` (outcome `d`) and the node
search in prefix mode (result `r`): both miss, or both stop at the same node. -/
def SameMatch (key : ByteSlice) (d : Option (List Nat × Nat)) (r : RadixTreeNodeResult) : Prop :=
  match d with
  | none => r.key_index < key.length
  | some (p, j) => r.node = p ++ [j] ∧ r.key_index ≥ key.length

/-- No label of `cs` has a first byte in common with `k`. -/
def noCommonWith (k : ByteSlice) : List RadixTreeNode → Bool
  | [] => true
  | c :: cs => common_len k c.key == 0 && noCommonWith k cs

mutual
/-- Invariant 1 below a node: among the children of every node, no two edge
labels share a non-empty common prefix. -/
def distinctFirstBytes : RadixTreeNode → Bool
  | .mk _ _ cs => distinctFirstBytesChildren cs
/-- The same for a list of siblings and the subtrees below them. -/
def distinctFirstBytesChildren : List RadixTreeNode → Bool
  | [] => true
  | c :: cs => noCommonWith c.key cs && distinctFirstBytes c && distinctFirstBytesChildren cs
end

/-- What a strict node search started at `n` guarantees when it stops before
the end of the key: the node it stops at has no child whose label is a prefix of
the rest of the key. -/
def StopAt (key : ByteSlice) (n : RadixTreeNode) (r : RadixTreeNodeResult) : Prop :=
  r.key_index < key.length →
    ∃ m, nodeAt n r.node = some m ∧ ∀ ch ∈ m.children, ¬ ch.key <+: key.drop r.key_index

mutual
/-- Invariants 2 and 3 at a node that is not the dummy root and below it: a
node without a value has at least two children. -/
def minimalNode : RadixTreeNode → Bool
  | .mk _ c cs => (c.isSome || decide (2 ≤ cs.length)) && minimalChildren cs
/-- The same for every node of a list of subtrees. -/
def minimalChildren : List RadixTreeNode → Bool
  | [] => true
  | c :: cs => minimalNode c && minimalChildren cs
end

/-- Invariants 2 and 3 for a tree: every node other than the dummy root that
carries no value has at least two children. -/
def minimalTree (t : RadixTreeRoot) : Bool :=
  minimalChildren t.node.children

/-! ## The shared lock seen from a walker

The state of the `std::shared_mutex` is the number `shared` of shared holds on
it; `lock_shared()` adds one and `unlock_shared()` takes one away. -/

/-- Method `RadixTreeRoot::walk_prefix` with the lock: the walker and the number
of shared holds after the call. -/
def walk_prefix_lock (t : RadixTreeRoot) (key : ByteSlice) (unlocked_init : Bool) (shared : Nat) :
    RadixTreeBranchWalker × Nat :=
  let shared1 := shared + 1
  let result := un_thread_safe_get_node t key true
  if key.length > result.key_index then
    (RadixTreeBranchWalker.create none key 0 unlocked_init, shared1 - 1)
  else
    (RadixTreeBranchWalker.create (nodeAt t.node result.node) key result.key_index unlocked_init,
      shared1)

/-- Method `RadixTreeBranchWalker::next` with the lock: as `next`, and the number
of shared holds after the call. -/
def next_lock : Nat → RadixTreeBranchWalker → Nat →
    Option (Option RadixTreeWalkValue × RadixTreeBranchWalker × Nat)
  | 0, _, _ => none
  | fuel + 1, w, shared =>
    match w.nodes with
    | [] =>
      if w.unlocked = false then some (none, { w with unlocked := true }, shared - 1)
      else some (none, w, shared)
    | last_child :: _ =>
      match (if w.childs_value_read then none else last_child.content) with
      | some content =>
        some (some ⟨w.get_current_key, content⟩, { w with childs_value_read := true }, shared)
      | none =>
        let w1 := { w with childs_value_read := true }
        let child_index := w1.child_indexes.headD 0
        if child_index = last_child.children.length then
          next_lock fuel w1.remove_node_child shared
        else
          match last_child.children[child_index]? with
          | none => none
          | some c =>
            next_lock fuel { w1.add_node_child c last_child.key with childs_value_read := false }
              shared

/-- A run of `calls` successive `next` calls: for each call the returned pointer
and the number of shared holds after it (`none` if a call hits its bound). -/
def run_lock (fuel : Nat) : Nat → RadixTreeBranchWalker → Nat →
    Option (List (Option RadixTreeWalkValue × Nat))
  | 0, _, _ => some []
  | calls + 1, w, shared =>
    match next_lock fuel w shared with
    | none => none
    | some (r, w1, shared1) =>
      match run_lock fuel calls w1 shared1 with
      | none => none
      | some rs => some ((r, shared1) :: rs)

/-! ## Concrete trees -/

/-- The tree after `set("ab","1")`, `set("abcb","2")`, `set("abcd","3")`. -/
def treeAbAbcbAbcd : RadixTreeRoot :=
  setAll .empty [(bytes "ab", bytes "1"), (bytes "abcb", bytes "2"), (bytes "abcd", bytes "3")]

/-- The tree after `set("ab","1")`, `set("abcd","2")`. -/
def treeAbAbcd : RadixTreeRoot :=
  setAll .empty [(bytes "ab", bytes "1"), (bytes "abcd", bytes "2")]

/-- The tree after `set("ab","1")`, `set("abcd","2")`, `set("abce","3")`. -/
def treeAbAbcdAbce : RadixTreeRoot :=
  setAll .empty [(bytes "ab", bytes "1"), (bytes "abcd", bytes "2"), (bytes "abce", bytes "3")]

/-- The tree after `set("ab","1")`, `set("ac","2")`: a router `a` over leaves `b`, `c`. -/
def treeAbAc : RadixTreeRoot :=
  setAll .empty [(bytes "ab", bytes "1"), (bytes "ac", bytes "2")]

/-- The tree after `set("a","1")`, `set("ab","2")`. -/
def treeAAb : RadixTreeRoot :=
  setAll .empty [(bytes "a", bytes "1"), (bytes "ab", bytes "2")]

/-- The tree after `set("a","A")`, `set("ab","B")`, `set("abc","C")`. -/
def treeAAbAbc : RadixTreeRoot :=
  setAll .empty [(bytes "a", bytes "A"), (bytes "ab", bytes "B"), (bytes "abc", bytes "C")]

/-- The tree after the four `set` calls of the romane / romanus / romulus / ruber scenario. -/
def treeRom : RadixTreeRoot :=
  setAll .empty [(bytes "romane", bytes "A"), (bytes "romanus", bytes "B"),
    (bytes "romulus", bytes "C"), (bytes "ruber", bytes "D")]

/-! ## Notions for the walk -/

/-- Concatenation of the keys of a stack of nodes given top first, bottom key
first: the full labels from the mount node down to the top of the stack. -/
def stackKey (nodes : List RadixTreeNode) : ByteSlice :=
  nodes.foldr (fun n data => data ++ n.key) []

/-- Pairs still to come from the frames under the top of the walker's stack: in
each of them the child at the frame's index is being visited, the later
children are still to be visited. -/
def pendingBelow : List RadixTreeNode → List Nat → List (ByteSlice × ByteSlice)
  | n :: ns, i :: is =>
    keyValuesChildren (stackKey (n :: ns)) (n.children.drop (i + 1)) ++ pendingBelow ns is
  | _, _ => []

/-- Pairs still to come from a walker, in the order of a depth-first pre-order
walk: the value of the top node if not read yet, the children of the top node
from its index on, then the frames below. -/
def pending (w : RadixTreeBranchWalker) : List (ByteSlice × ByteSlice) :=
  match w.nodes, w.child_indexes with
  | n :: ns, i :: is =>
    (match (if w.childs_value_read then none else n.content) with
      | some v => [(stackKey (n :: ns), v)]
      | none => []) ++
    (keyValuesChildren (stackKey (n :: ns)) (n.children.drop i) ++ pendingBelow ns is)
  | _, _ => []

/-- Bound on the loop rounds the frames under the top still cause. -/
def workBelow : List RadixTreeNode → List Nat → Nat
  | n :: ns, i :: is => 3 * countNodes (n.children.drop (i + 1)) + 1 + workBelow ns is
  | _, _ => 0

/-- Bound on the loop rounds of `next` a walker still causes before its stack is empty. -/
def work (w : RadixTreeBranchWalker) : Nat :=
  match w.nodes, w.child_indexes with
  | n :: ns, i :: is =>
    (if w.childs_value_read then 0 else 1) + (3 * countNodes (n.children.drop i) + 1) +
      workBelow ns is
  | _, _ => 0

/-- Frames under the top: one index per node, each pointing at an existing child. -/
def framesOk : List RadixTreeNode → List Nat → Prop
  | n :: ns, i :: is => i < n.children.length ∧ framesOk ns is
  | [], [] => True
  | _, _ => False

/-- Well-formed walker: one index per node, the top index at most the number of
children of the top node, the lower ones pointing at existing children. -/
def WalkerOk (w : RadixTreeBranchWalker) : Prop :=
  match w.nodes, w.child_indexes with
  | n :: ns, i :: is => i ≤ n.children.length ∧ framesOk ns is
  | [], [] => True
  | _, _ => False

/-! ## Invariants and reachable trees -/

mutual
/-- A node test `q` holds of a node and of every node below it. -/
def everyNode (q : RadixTreeNode → Bool) : RadixTreeNode → Bool
  | .mk k c cs => q (.mk k c cs) && everyChild q cs
/-- A node test `q` holds of every node of a list of subtrees. -/
def everyChild (q : RadixTreeNode → Bool) : List RadixTreeNode → Bool
  | [] => true
  | c :: cs => everyNode q c && everyChild q cs
end

/-- Node test: the edge label has at least one byte. -/
def hasLabel (n : RadixTreeNode) : Bool := decide (1 ≤ n.key.length)

/-- Node test of invariants 2 and 3: a value or at least two children. -/
def valueOrBranch (n : RadixTreeNode) : Bool := n.content.isSome || decide (2 ≤ n.children.length)

/-- Every node of the tree other than the dummy root has a non-empty edge label. -/
def labelsNonEmpty (t : RadixTreeRoot) : Bool := everyChild hasLabel t.node.children

/-- A mutating call of the public interface: `set(key, value)` or `delete_key(key)`. -/
inductive Op where
  | set (key value : ByteSlice)
  | delete_key (key : ByteSlice)

/-- The tree after one call. -/
def applyOp (t : RadixTreeRoot) : Op → RadixTreeRoot
  | .set k v => (set t k v).1
  | .delete_key k => (delete_key t k).1

/-- The tree after a sequence of calls, applied left to right. -/
def runOps (t : RadixTreeRoot) : List Op → RadixTreeRoot
  | [] => t
  | op :: ops => runOps (applyOp t op) ops

/-- The node `delete_key(key)` cuts, if any, has no children. -/
def cutsLeaf (t : RadixTreeRoot) (key : ByteSlice) : Bool :=
  match delete_key_from key t.node 0 with
  | none => true
  | some (p, i) =>
    match nodeAt t.node (p ++ [i]) with
    | none => true
    | some b => b.children.isEmpty

mutual
/-- Number of value-carrying nodes of a subtree. -/
def valueCountNode : RadixTreeNode → Nat
  | .mk _ c cs => (if c.isSome then 1 else 0) + valueCountChildren cs
/-- Number of value-carrying nodes of a list of subtrees. -/
def valueCountChildren : List RadixTreeNode → Nat
  | [] => 0
  | c :: cs => valueCountNode c + valueCountChildren cs
end

/-! ## Structural lemmas -/

mutual
/-- Induction over a tree: a property holds of every node if it holds of a node
whenever it holds of all its children. -/
theorem RadixTreeNode.induct {P : RadixTreeNode → Prop}
    (h : ∀ k c cs, (∀ ch ∈ cs, P ch) → P (.mk k c cs)) : ∀ n, P n
  | .mk k c cs => h k c cs (RadixTreeNode.induct_children h cs)
/-- Companion of `RadixTreeNode.induct` for a list of children. -/
theorem RadixTreeNode.induct_children {P : RadixTreeNode → Prop}
    (h : ∀ k c cs, (∀ ch ∈ cs, P ch) → P (.mk k c cs)) :
    ∀ cs : List RadixTreeNode, ∀ ch ∈ cs, P ch
  | [] => by simp
  | c :: cs => by
    intro ch hch
    rcases List.mem_cons.1 hch with rfl | h1
    · exact RadixTreeNode.induct h _
    · exact RadixTreeNode.induct_children h cs ch h1
end

theorem common_len_le_left : ∀ a b : ByteSlice, common_len a b ≤ a.length
  | [], _ => by simp [common_len]
  | _ :: _, [] => by simp [common_len]
  | x :: a, y :: b => by
    have := common_len_le_left a b
    by_cases h : x = y
    · simp [common_len, h]; omega
    · simp [common_len, h]

theorem common_len_eq_length : ∀ a b : ByteSlice, common_len a b = a.length → a <+: b
  | [], _ => by simp
  | _ :: _, [] => by simp [common_len]
  | x :: a, y :: b => by
    by_cases h : x = y
    · subst h
      intro hc
      simp [common_len] at hc
      have := common_len_eq_length a b hc
      simpa [List.prefix_cons_inj] using this
    · simp [common_len, h]

theorem memcmp_eq_pfx (key : ByteSlice) (ki : Nat) (ck : ByteSlice)
    (h : memcmp_eq key ki ck = true) : ck <+: key.drop ki := by
  simp [memcmp_eq] at h
  rw [← h]
  exact List.take_prefix _ _

theorem memcmp_eq_split (key : ByteSlice) (ki : Nat) (ck : ByteSlice)
    (h : memcmp_eq key ki ck = true) : key.drop ki = ck ++ key.drop (ki + ck.length) := by
  simp [memcmp_eq] at h
  have h2 := List.take_append_drop ck.length (key.drop ki)
  rw [h, List.drop_drop] at h2
  exact h2.symm

theorem get_node_from_ge (key : ByteSlice) (allow : Bool) (n : RadixTreeNode) (ki : Nat)
    (h : ki ≥ key.length) : get_node_from key allow n ki = ⟨ki, []⟩ := by
  cases n with
  | mk k c cs => simp [get_node_from, h]

theorem get?_append_length (done : List RadixTreeNode) (child : RadixTreeNode)
    (rest : List RadixTreeNode) : (done ++ child :: rest)[done.length]? = some child := by
  induction done with
  | nil => simp
  | cons d ds ih => simpa using ih

theorem get_node_children_ok (key : ByteSlice) (allow : Bool) :
    ∀ (cs : List RadixTreeNode),
      (∀ ch ∈ cs, ∀ ki, SearchOk key allow ch ki (get_node_from key allow ch ki)) →
      ∀ (done : List RadixTreeNode) (k : ByteSlice) (c : Option ByteSlice) (ki : Nat),
        SearchOk key allow (.mk k c (done ++ cs)) ki
          (get_node_children key allow cs done.length ki) := by
  intro cs
  induction cs with
  | nil =>
    intro _ done k c ki
    simp [get_node_children, SearchOk, nodeAt, pathKey]
  | cons child rest ihr =>
    intro ih done k c ki
    have hrest : ∀ ch ∈ rest, ∀ ki, SearchOk key allow ch ki (get_node_from key allow ch ki) :=
      fun ch hch => ih ch (List.mem_cons_of_mem _ hch)
    have hskip : SearchOk key allow (.mk k c (done ++ child :: rest)) ki
        (get_node_children key allow rest (done.length + 1) ki) := by
      have := ihr hrest (done ++ [child]) k c ki
      simpa using this
    have hget : (done ++ child :: rest)[done.length]? = some child :=
      get?_append_length done child rest
    have hdesc : ∀ r : RadixTreeNodeResult, SearchOk key allow child (ki + child.key.length) r →
        (child.key <+: key.drop ki ∧ key.drop ki = child.key ++ key.drop (ki + child.key.length)
          ∨ (allow = true ∧ key.drop ki <+: child.key ∧ r.node = [])) →
        SearchOk key allow (.mk k c (done ++ child :: rest)) ki
          ⟨r.key_index, done.length :: r.node⟩ := by
      intro r hr hk
      obtain ⟨h1, h2, h3⟩ := hr
      refine ⟨?_, ?_, ?_⟩
      · simp only [nodeAt, hget]
        exact h1
      · simp only [pathKey, hget, List.length_append]
        omega
      · simp only [pathKey, hget]
        rcases hk with ⟨_, hsplit⟩ | ⟨ha, hp, hnil⟩
        · rw [hsplit]
          rcases h3 with h3 | ⟨ha, h3⟩
          · exact Or.inl ((List.prefix_append_right_inj _).2 h3)
          · exact Or.inr ⟨ha, (List.prefix_append_right_inj _).2 h3⟩
        · refine Or.inr ⟨ha, ?_⟩
          rw [hnil]
          simpa [pathKey] using hp
    rw [get_node_children]
    split
    · split
      · rename_i hm
        exact hdesc _ (ih child (List.mem_cons_self _ _) _)
          (Or.inl ⟨memcmp_eq_pfx key ki child.key hm, memcmp_eq_split key ki child.key hm⟩)
      · exact hskip
    · split
      · rename_i hlen hpre
        split
        · rename_i hc
          have hge : ki + child.key.length ≥ key.length := by omega
          have hpfx : key.drop ki <+: child.key := by
            apply common_len_eq_length
            simp only [List.length_drop]
            omega
          refine hdesc _ (ih child (List.mem_cons_self _ _) _) (Or.inr ⟨hpre.2, hpfx, ?_⟩)
          rw [get_node_from_ge key allow child _ hge]
        · exact hskip
      · exact hskip

theorem get_node_from_ok (key : ByteSlice) (allow : Bool) :
    ∀ (n : RadixTreeNode) (ki : Nat), SearchOk key allow n ki (get_node_from key allow n ki) := by
  intro n
  induction n using RadixTreeNode.induct with
  | h k c cs ih =>
    intro ki
    rw [get_node_from]
    split
    · simp [SearchOk, nodeAt, pathKey]
    · exact get_node_children_ok key allow cs ih [] k c ki

theorem un_thread_safe_get_node_ok (t : RadixTreeRoot) (key : ByteSlice) (allow : Bool) :
    SearchOk key allow t.node 0 (un_thread_safe_get_node t key allow) := by
  unfold un_thread_safe_get_node
  split
  · simp [SearchOk, nodeAt, pathKey]
  · exact get_node_from_ok key allow t.node 0

theorem keyValuesChildren_mem (pre : ByteSlice) :
    ∀ (cs : List RadixTreeNode) (ch : RadixTreeNode), ch ∈ cs →
      ∀ x ∈ keyValuesNode (pre ++ ch.key) ch, x ∈ keyValuesChildren pre cs := by
  intro cs
  induction cs with
  | nil => intro ch hch; simp at hch
  | cons c rest ih =>
    intro ch hch x hx
    rw [keyValuesChildren]
    rcases List.mem_cons.1 hch with rfl | h1
    · exact List.mem_append_left _ hx
    · exact List.mem_append_right _ (ih ch h1 x hx)

theorem keyValuesNode_children (pre k : ByteSlice) (c : Option ByteSlice)
    (cs : List RadixTreeNode) (x : ByteSlice × ByteSlice) (hx : x ∈ keyValuesChildren pre cs) :
    x ∈ keyValuesNode pre (.mk k c cs) := by
  cases c with
  | none => simpa [keyValuesNode] using hx
  | some v => simp [keyValuesNode, hx]

theorem nodeAt_mem_keyValues :
    ∀ (n : RadixTreeNode) (path : List Nat) (pre : ByteSlice) (m : RadixTreeNode)
      (v : ByteSlice), nodeAt n path = some m → m.content = some v →
      (pre ++ pathKey n path, v) ∈ keyValuesNode pre n := by
  intro n
  induction n using RadixTreeNode.induct with
  | h k c cs ih =>
    intro path pre m v hm hv
    cases path with
    | nil =>
      simp only [nodeAt, Option.some.injEq] at hm
      subst hm
      simp only [RadixTreeNode.content] at hv
      subst hv
      simp [keyValuesNode, pathKey]
    | cons i p =>
      simp only [nodeAt] at hm
      cases hget : cs[i]? with
      | none => simp [hget] at hm
      | some ch =>
        simp only [hget] at hm
        have hmem : ch ∈ cs := List.getElem?_mem hget
        have h1 := ih ch hmem p (pre ++ ch.key) m v hm hv
        apply keyValuesNode_children
        apply keyValuesChildren_mem pre cs ch hmem
        simpa [pathKey, hget, List.append_assoc] using h1

theorem get_some_mem_keyValues (t : RadixTreeRoot) (key v : ByteSlice)
    (h : get t key = some v) : (key, v) ∈ keyValues t := by
  unfold get at h
  have hok := un_thread_safe_get_node_ok t key false
  generalize un_thread_safe_get_node t key false = r at h hok
  obtain ⟨_, h2, h3⟩ := hok
  simp only [ne_eq, ite_not] at h
  split at h
  · rename_i hk
    unfold contentAt at h
    cases hn : nodeAt t.node r.node with
    | none => simp [hn] at h
    | some m =>
      simp only [hn] at h
      have hp : pathKey t.node r.node <+: key := by
        rcases h3 with h3 | ⟨h3, _⟩
        · simpa using h3
        · simp at h3
      have hkey : pathKey t.node r.node = key := by
        apply hp.eq_of_length
        omega
      have := nodeAt_mem_keyValues t.node r.node [] m v hn h
      simpa [keyValues, hkey] using this
  · simp at h

theorem free_node_children_loop_eq :
    ∀ (info_stack : List (List RadixTreeNode)) (killed : Nat),
      free_node_children_loop info_stack killed = killed + (info_stack.map countNodes).sum := by
  intro info_stack killed
  induction info_stack, killed using free_node_children_loop.induct with
  | case1 killed => simp [free_node_children_loop]
  | case2 stack killed ih => simp [free_node_children_loop, ih, countNodes]
  | case3 next nodes stack killed ih =>
    rw [free_node_children_loop, ih]
    cases next with
    | mk k c cs => simp [countNodes, countNode, RadixTreeNode.children]; omega

theorem free_node_children_eq (nodes : List RadixTreeNode) :
    free_node_children nodes = countNodes nodes := by
  simp [free_node_children, free_node_children_loop_eq]

theorem delete_prefix_children_same (key : ByteSlice) :
    ∀ (cs : List RadixTreeNode),
      (∀ ch ∈ cs, ∀ ki, ki < key.length →
        SameMatch key (delete_prefix_from key ch ki) (get_node_from key true ch ki)) →
      ∀ (i ki : Nat), ki < key.length →
        SameMatch key (delete_prefix_children key cs i ki) (get_node_children key true cs i ki) := by
  intro cs
  induction cs with
  | nil =>
    intro _ i ki hki
    simpa [delete_prefix_children, get_node_children, SameMatch] using hki
  | cons child rest ihr =>
    intro ih i ki hki
    have hskip := ihr (fun ch hch => ih ch (List.mem_cons_of_mem _ hch)) (i + 1) ki hki
    rw [delete_prefix_children, get_node_children]
    split
    · rename_i hlen
      split
      · split
        · rename_i heq
          rw [get_node_from_ge key true child _ (by omega)]
          simp only [SameMatch, List.nil_append, true_and]
          omega
        · rename_i hne
          have hlt : ki + child.key.length < key.length := by omega
          have h1 := ih child (List.mem_cons_self _ _) _ hlt
          revert h1
          cases delete_prefix_from key child (ki + child.key.length) with
          | none => simp [SameMatch]
          | some pj =>
            obtain ⟨p, j⟩ := pj
            simp only [SameMatch, List.cons_append]
            intro h1
            exact ⟨by rw [h1.1], h1.2⟩
      · exact hskip
    · rename_i hlen
      have hgt : ki + child.key.length > key.length := by omega
      simp only [hgt, and_self, if_true]
      split
      · rw [get_node_from_ge key true child _ (by omega)]
        simp only [SameMatch, List.nil_append, true_and]
        omega
      · exact hskip

theorem delete_prefix_from_same (key : ByteSlice) :
    ∀ (n : RadixTreeNode) (ki : Nat), ki < key.length →
      SameMatch key (delete_prefix_from key n ki) (get_node_from key true n ki) := by
  intro n
  induction n using RadixTreeNode.induct with
  | h k c cs ih =>
    intro ki hki
    rw [delete_prefix_from, get_node_from]
    simp only [ge_iff_le, Nat.not_le.2 hki, if_false]
    exact delete_prefix_children_same key cs ih 0 ki hki

theorem countNode_eq (n : RadixTreeNode) : countNode n = 1 + countNodes n.children := by
  cases n with
  | mk k c cs => simp [countNode, RadixTreeNode.children, Nat.add_comm]

theorem next_of_nodes_nil (w : RadixTreeBranchWalker) (hw : w.nodes = []) (fuel : Nat) :
    w.next (fuel + 1) = some (none, { w with unlocked := true }) := by
  simp [RadixTreeBranchWalker.next, hw]

theorem nthNext_of_nodes_nil (fuel : Nat) :
    ∀ (n : Nat) (w : RadixTreeBranchWalker), w.nodes = [] → nthNext (fuel + 1) n w = some none := by
  intro n
  induction n with
  | zero =>
    intro w hw
    simp [nthNext, next_of_nodes_nil w hw]
  | succ n ih =>
    intro w hw
    simp only [nthNext, next_of_nodes_nil w hw]
    exact ih _ hw

theorem walk_prefix_nodes_nil (t : RadixTreeRoot) (p : ByteSlice) (u : Bool)
    (h : ∀ path, (nodeAt t.node path).isSome = true → ¬ p <+: pathKey t.node path) :
    ( walk_prefix t p u).nodes = [] := by
  have hok := un_thread_safe_get_node_ok t p true
  unfold walk_prefix
  generalize un_thread_safe_get_node t p true = r at hok
  obtain ⟨h1, h2, h3⟩ := hok
  simp only
  split
  · simp [RadixTreeBranchWalker.create]
  · rename_i hlen
    exfalso
    apply h r.node h1
    rcases h3 with h3 | ⟨_, h3⟩
    · have hl := h3.length_le
      simp only [List.drop_zero] at h3 hl
      have : pathKey t.node r.node = p := h3.eq_of_length (by omega)
      rw [this]
    · simpa using h3

/-! ## The claims -/

/-- C1 (fails on the code): after `set("ab")`, `set("abcd")`, the call
`set("abce","3")` is followed by a `get("abce")` that returns the null pointer. -/
theorem C1_get_after_set_is_absent :
    (set treeAbAbcd (bytes "abce") (bytes "3")).1.node =
      .mk [] none [.mk (bytes "ab") (some (bytes "1"))
        [.mk (bytes "c") none
          [.mk (bytes "d") (some (bytes "2")) [], .mk (bytes "bce") (some (bytes "3")) []]]] ∧
    get (set treeAbAbcd (bytes "abce") (bytes "3")).1 (bytes "abce") = none :=
  ⟨rfl, by decide⟩

/-- C2: for every tree, key and value, `set` returns true exactly when `get` of
the same key on the tree before the call returns a value. -/
theorem C2_set_returns_true_iff_present (t : RadixTreeRoot) (k v : ByteSlice) :
    (set t k v).2 = true ↔ (get t k).isSome = true := by
  unfold set get
  generalize un_thread_safe_get_node t k false = r
  by_cases hk : r.key_index = k.length
  · by_cases hc : (contentAt t r.node).isSome = true <;> simp [hk, hc]
  · simp [hk]

/-- C3 (fails on the code): after `set("ab")`, `set("abcd")` and `set("abce","3")`,
the call `delete_key("abce")` returns false. -/
theorem C3_delete_after_set_returns_false :
    (delete_key (set treeAbAbcd (bytes "abce") (bytes "3")).1 (bytes "abce")).2 = false := by
  decide

/-- C4 (fails on the code): `delete_key` returns true for a key that holds no
value when a router sits at that key, and a second `delete_key` right after a
successful one returns true again when the node has a child. -/
theorem C4_delete_key_true_without_value :
    (get treeAbAc (bytes "a") = none ∧ (delete_key treeAbAc (bytes "a")).2 = true) ∧
    ((delete_key treeAAb (bytes "a")).2 = true ∧
      get (delete_key treeAAb (bytes "a")).1 (bytes "a") = none ∧
      (delete_key (delete_key treeAAb (bytes "a")).1 (bytes "a")).2 = true) := by
  decide

/-- C5 (fails on the code): after `set("ab","1")`, `set("abcd","2")`, `set("abce","3")`
the walk of the empty prefix emits the key `abcbce`, which was never inserted,
and does not emit `abce`. -/
theorem C5_walk_emits_key_never_set :
    RadixTreeBranchWalker.drain 16 8 ( walk_prefix treeAbAbcdAbce [] false) =
      some [⟨bytes "ab", bytes "1"⟩, ⟨bytes "abcd", bytes "2"⟩, ⟨bytes "abcbce", bytes "3"⟩] := by
  decide

/-- C6 (fails on the code): on the romane / romanus / romulus / ruber tree the
walk of the prefix `rom` emits the keys `omane`, `omanus`, `omulusus`: the label
`r` above the node the walker is mounted on is missing from every key, and the
third key ends with the label of the popped node `us`. -/
theorem C6_walk_prefix_rom_keys :
    treeRom.node =
      .mk [] none [.mk (bytes "r") none
        [.mk (bytes "om") none
          [.mk (bytes "an") none
            [.mk (bytes "e") (some (bytes "A")) [], .mk (bytes "us") (some (bytes "B")) []],
           .mk (bytes "ulus") (some (bytes "C")) []],
         .mk (bytes "uber") (some (bytes "D")) []]] ∧
    distinctFirstBytes treeRom.node = true ∧
    get treeRom (bytes "romane") = some (bytes "A") ∧
    RadixTreeBranchWalker.drain 16 8 ( walk_prefix treeRom (bytes "rom") false) =
      some [⟨bytes "omane", bytes "A"⟩, ⟨bytes "omanus", bytes "B"⟩,
        ⟨bytes "omulusus", bytes "C"⟩] :=
  ⟨rfl, by decide⟩

/-- C7: if no node of the tree has a root-path key that begins with `p`, then
`walk_prefix(p)` is an empty walker: every call of `next`, the first and all
later ones, returns the null pointer. -/
theorem C7_walk_prefix_absent_is_empty (t : RadixTreeRoot) (p : ByteSlice) (u : Bool)
    (h : ∀ path, (nodeAt t.node path).isSome = true → ¬ p <+: pathKey t.node path)
    (fuel n : Nat) : nthNext (fuel + 1) n ( walk_prefix t p u) = some none :=
  nthNext_of_nodes_nil fuel n _ (walk_prefix_nodes_nil t p u h)

/-- Witness for C7: the prefix `xyz` on the empty tree; the third `next` returns null. -/
theorem C7_walk_prefix_absent_is_empty_witness :
    nthNext 1 2 ( walk_prefix .empty (bytes "xyz") false) = some none :=
  C7_walk_prefix_absent_is_empty .empty (bytes "xyz") false
    (by
      intro path hp
      cases path with
      | nil => simp [pathKey, bytes]
      | cons i q => simp [RadixTreeRoot.empty, nodeAt] at hp)
    0 2

/-- C8 as stated fails: on the tree built by `set("ab")`, `set("ac")` the call
`delete_prefix("a")` returns 3, while exactly two keys that begin with `a` are
present, `ab` and `ac`. -/
theorem C8_delete_prefix_counts_router :
    ( delete_prefix treeAbAc (bytes "a")).map Prod.snd = some 3 ∧
    ∀ k, ((get treeAbAc k).isSome = true ∧ bytes "a" <+: k) ↔ (k = bytes "ab" ∨ k = bytes "ac") := by
  constructor
  · simp only [ delete_prefix, free_node_children_eq]
    decide
  · intro k
    constructor
    · rintro ⟨hs, _⟩
      obtain ⟨v, hv⟩ := Option.isSome_iff_exists.1 hs
      have hmem := get_some_mem_keyValues treeAbAc k v hv
      have hkv : keyValues treeAbAc = [(bytes "ab", bytes "1"), (bytes "ac", bytes "2")] := by
        decide
      rw [hkv] at hmem
      simp only [List.mem_cons, Prod.mk.injEq, List.mem_singleton, List.not_mem_nil,
        or_false] at hmem
      rcases hmem with ⟨h1, _⟩ | ⟨h1, _⟩
      · exact Or.inl h1
      · exact Or.inr h1
    · rintro (rfl | rfl) <;> decide

/-- C8, amended: for a non-empty prefix, `delete_prefix` returns 0 when the
prefix search does not consume the whole prefix, and when the node the search
stops at has at least one child it returns the number of nodes, routers
included, of the subtree whose top is that node. -/
theorem C8_delete_prefix_returns_node_count (t : RadixTreeRoot) (p : ByteSlice) (hp : p ≠ []) :
    ((un_thread_safe_get_node t p true).key_index < p.length →
      ( delete_prefix t p).map Prod.snd = some 0) ∧
    (∀ n, p.length ≤ (un_thread_safe_get_node t p true).key_index →
      nodeAt t.node (un_thread_safe_get_node t p true).node = some n → n.children ≠ [] →
      ( delete_prefix t p).map Prod.snd = some (countNode n)) := by
  have hlen : p.length ≠ 0 := by
    intro h0
    exact hp (List.length_eq_zero.1 h0)
  have hsame := delete_prefix_from_same p t.node 0 (Nat.pos_of_ne_zero hlen)
  unfold delete_prefix un_thread_safe_get_node
  simp only [hlen, if_false]
  generalize get_node_from p true t.node 0 = r at hsame
  cases hd : delete_prefix_from p t.node 0 with
  | none =>
    rw [hd] at hsame
    simp only [SameMatch] at hsame
    refine ⟨fun _ => rfl, fun n hge _ _ => ?_⟩
    omega
  | some qj =>
    obtain ⟨q, j⟩ := qj
    rw [hd] at hsame
    simp only [SameMatch] at hsame
    obtain ⟨hnode, hge⟩ := hsame
    refine ⟨fun hlt => by omega, fun n _ hn hne => ?_⟩
    rw [hnode] at hn
    have hl : n.children.length ≠ 0 := fun h0 => hne (List.length_eq_zero.1 h0)
    simp [hn, hl, free_node_children_eq, countNode_eq]

/-- Witness for C8: the prefix `a` on the tree built by `set("ab")`, `set("ac")`,
where the search stops at the router `a` with its two children. -/
theorem C8_delete_prefix_returns_node_count_witness :
    ( delete_prefix treeAbAc (bytes "a")).map Prod.snd = some 3 :=
  ((C8_delete_prefix_returns_node_count treeAbAc (bytes "a") (by decide)).2
    (.mk (bytes "a") none
      [.mk (bytes "b") (some (bytes "1")) [], .mk (bytes "c") (some (bytes "2")) []])
    (by decide) rfl (List.cons_ne_nil _ _)).trans (by decide)

/-- C9 (fails on the code): after `set("a")`, `set("ab")`, `set("abc")` the call
`delete_prefix("a")` returns 3 and leaves the dummy root with one child: the
matched node has a child, so the cut does not take it out of the root's array. -/
theorem C9_delete_prefix_leaves_child_linked :
    treeAAbAbc.node =
      .mk [] none [.mk (bytes "a") (some (bytes "A"))
        [.mk (bytes "b") (some (bytes "B")) [.mk (bytes "c") (some (bytes "C")) []]]] ∧
    ( delete_prefix treeAAbAbc (bytes "a")).map Prod.snd = some 3 ∧
    ( delete_prefix treeAAbAbc (bytes "a")).map (fun r => r.1.node.children.length) =
      some 1 := by
  refine ⟨rfl, ?_, by decide⟩
  simp only [ delete_prefix, free_node_children_eq]
  decide

/-- C10: for every tree and value, `set` with the empty key stores the value on
the dummy root and keeps the root's children; `get` of the empty key then returns
it; `delete_key` of the empty key then returns true and clears the root's value,
so that `get` of the empty key is absent; and `delete_key` of the empty key on a
root without a value returns false. -/
theorem C10_empty_key (t : RadixTreeRoot) (v : ByteSlice) (k : ByteSlice)
    (cs : List RadixTreeNode) :
    (set t [] v).1.node.content = some v ∧
    (set t [] v).1.node.children = t.node.children ∧
    get (set t [] v).1 [] = some v ∧
    (delete_key (set t [] v).1 []).2 = true ∧
    (delete_key (set t [] v).1 []).1.node.content = none ∧
    (delete_key (set t [] v).1 []).1.node.children = t.node.children ∧
    get (delete_key (set t [] v).1 []).1 [] = none ∧
    (delete_key ⟨.mk k none cs⟩ []).2 = false := by
  have hset : (set t [] v).1 = ⟨.mk t.node.key (some v) t.node.children⟩ := by
    unfold set
    by_cases hc : (contentAt t []).isSome = true <;>
      simp [un_thread_safe_get_node, modifyAt, hc]
  rw [hset]
  simp [get, un_thread_safe_get_node, contentAt, nodeAt, delete_key,
    RadixTreeNode.content, RadixTreeNode.children, RadixTreeNode.key]

/-! ## Lemmas for the second group of claims -/

theorem memcmp_eq_of_pfx (key : ByteSlice) (ki : Nat) (ck : ByteSlice)
    (h : ck <+: key.drop ki) : memcmp_eq key ki ck = true := by
  have h1 := List.prefix_iff_eq_take.1 h
  simp only [memcmp_eq, beq_iff_eq]
  exact h1.symm

theorem pfx_length_le (key : ByteSlice) (ki : Nat) (ck : ByteSlice) (hki : ki < key.length)
    (h : ck <+: key.drop ki) : key.length ≥ ki + ck.length := by
  have h1 := h.length_le
  simp only [List.length_drop] at h1
  omega

theorem get_node_children_stop (key : ByteSlice) :
    ∀ (cs : List RadixTreeNode),
      (∀ ch ∈ cs, ∀ ki, StopAt key ch (get_node_from key false ch ki)) →
      ∀ (done : List RadixTreeNode) (k : ByteSlice) (c : Option ByteSlice) (ki : Nat),
        ki < key.length → (∀ d ∈ done, ¬ d.key <+: key.drop ki) →
        StopAt key (.mk k c (done ++ cs)) (get_node_children key false cs done.length ki) := by
  intro cs
  induction cs with
  | nil =>
    intro _ done k c ki _ hdone _
    refine ⟨.mk k c (done ++ []), ?_, ?_⟩
    · simp [get_node_children, nodeAt]
    · simpa [get_node_children, RadixTreeNode.children] using hdone
  | cons child rest ihr =>
    intro ih done k c ki hki hdone
    have hget : (done ++ child :: rest)[done.length]? = some child :=
      get?_append_length done child rest
    have hskip : ¬ child.key <+: key.drop ki →
        StopAt key (.mk k c (done ++ child :: rest))
          (get_node_children key false rest (done.length + 1) ki) := by
      intro hno
      have h1 := ihr (fun ch hch => ih ch (List.mem_cons_of_mem _ hch)) (done ++ [child]) k c ki
        hki (by
          intro d hd
          rcases List.mem_append.1 hd with hd | hd
          · exact hdone d hd
          · rw [List.mem_singleton.1 hd]
            exact hno)
      simpa using h1
    rw [get_node_children]
    split
    · split
      · intro hlt
        obtain ⟨m, hm, hch⟩ := ih child (List.mem_cons_self _ _) (ki + child.key.length) hlt
        refine ⟨m, ?_, hch⟩
        simp only [nodeAt, hget]
        exact hm
      · rename_i hm
        apply hskip
        intro hp
        exact hm (memcmp_eq_of_pfx key ki child.key hp)
    · rename_i hlen
      have hno : ¬ child.key <+: key.drop ki := by
        intro hp
        exact hlen (pfx_length_le key ki child.key hki hp)
      simpa using hskip hno

theorem get_node_from_stop (key : ByteSlice) :
    ∀ (n : RadixTreeNode) (ki : Nat), StopAt key n (get_node_from key false n ki) := by
  intro n
  induction n using RadixTreeNode.induct with
  | h k c cs ih =>
    intro ki
    rw [get_node_from]
    split
    · rename_i hge
      intro hlt
      simp only at hlt
      omega
    · rename_i hlt
      exact get_node_children_stop key cs ih [] k c ki (by omega) (by simp)

theorem get_empty_tree (k : ByteSlice) : get .empty k = none := by
  cases k with
  | nil => rfl
  | cons b bs =>
    simp [get, un_thread_safe_get_node, RadixTreeRoot.empty, get_node_from, get_node_children]

theorem next_lock_agrees :
    ∀ (fuel : Nat) (w : RadixTreeBranchWalker) (shared : Nat),
      (next_lock fuel w shared).map (fun x => (x.1, x.2.1)) = w.next fuel := by
  intro fuel
  induction fuel with
  | zero => intro w shared; rfl
  | succ fuel ih =>
    intro w shared
    obtain ⟨r, u, ns, ks, is⟩ := w
    cases ns with
    | nil =>
      cases u <;> simp [next_lock, RadixTreeBranchWalker.next]
    | cons last_child rest =>
      simp only [next_lock, RadixTreeBranchWalker.next]
      split
      · rfl
      · split
        · exact ih _ _
        · split
          · rfl
          · exact ih _ _

/-! ## The claims, second group -/

/-- C11: for every tree, after `free_tree` the dummy root has no value and no
children, `get` is absent for every key, the empty key included, and the tree is
the tree a fresh constructor call makes, so later calls behave as on a new tree. -/
theorem C11_free_tree_resets (t : RadixTreeRoot) :
    (free_tree t).node.content = none ∧ (free_tree t).node.children = [] ∧
    (∀ k, get (free_tree t) k = none) ∧ free_tree t = RadixTreeRoot.empty :=
  ⟨rfl, rfl, fun k => get_empty_tree k, rfl⟩

/-- C12: for every tree, `delete_prefix` of the empty prefix leaves the dummy
root without children, leaves the root's value and `get` of the empty key as
they were, and returns the number of nodes of the detached subtrees. -/
theorem C12_delete_prefix_empty (t : RadixTreeRoot) :
    ( delete_prefix t []).map (fun r => r.1.node.children) = some [] ∧
    ( delete_prefix t []).map (fun r => r.1.node.content) = some t.node.content ∧
    ( delete_prefix t []).map (fun r => get r.1 []) = some (get t []) ∧
    ( delete_prefix t []).map Prod.snd = some (countNodes t.node.children) := by
  simp [ delete_prefix, free_node_children_eq, get, un_thread_safe_get_node, contentAt, nodeAt,
    RadixTreeNode.children, RadixTreeNode.content]

/-- C13 (fails on the code): after `set("ab")`, `set("abcb")`, `set("abcd")` the
node `c` has the two children `b` and `bcd`, whose labels begin with the same byte. -/
theorem C13_siblings_share_first_byte :
    treeAbAbcbAbcd.node =
      .mk [] none [.mk (bytes "ab") (some (bytes "1"))
        [.mk (bytes "c") none
          [.mk (bytes "b") (some (bytes "2")) [], .mk (bytes "bcd") (some (bytes "3")) []]]] ∧
    distinctFirstBytes treeAbAbcbAbcd.node = false :=
  ⟨rfl, by decide⟩

/-- C14 (fails on the code): after `set("a")`, `set("ab")` the call
`delete_key("a")` returns true and leaves the node `a` without a value and with
the single child `b`. -/
theorem C14_router_with_one_child :
    minimalTree treeAAb = true ∧
    (delete_key treeAAb (bytes "a")).2 = true ∧
    (delete_key treeAAb (bytes "a")).1.node =
      .mk [] none [.mk (bytes "a") none [.mk (bytes "b") (some (bytes "2")) []]] ∧
    minimalTree (delete_key treeAAb (bytes "a")).1 = false :=
  ⟨by decide, by decide, rfl, by decide⟩

/-- C15 (fails on the code): the walker's field `unlocked` is not written by the
constructor for a located prefix; when it starts as true, no `next` call gives
up the shared hold taken by `walk_prefix`, not even the calls that find the
stack empty (first run); when it starts as false the hold is given up by the
first such call (second run). -/
theorem C15_lock_kept_when_flag_starts_true :
    (walk_prefix_lock treeAbAc [] true 0).2 = 1 ∧
    run_lock 16 4 (walk_prefix_lock treeAbAc [] true 0).1 1 =
      some [(some ⟨bytes "ab", bytes "1"⟩, 1), (some ⟨bytes "ac", bytes "2"⟩, 1),
        (none, 1), (none, 1)] ∧
    run_lock 16 4 (walk_prefix_lock treeAbAc [] false 0).1 1 =
      some [(some ⟨bytes "ab", bytes "1"⟩, 1), (some ⟨bytes "ac", bytes "2"⟩, 1),
        (none, 0), (none, 0)] := by
  decide

/-- C17 (fails on the code): in `set("abce","3")` after `set("ab")`, `set("abcd")`
the search stops at node `ab` with `key_index = 2`, the child `cd` shares one
byte, and the appended second child gets the label `bce`, not `e`. -/
theorem C17_second_child_label :
    un_thread_safe_get_node treeAbAbcd (bytes "abce") false = ⟨2, [0]⟩ ∧
    common_len ((bytes "abce").drop 2) (bytes "cd") = 1 ∧
    set_break_down (bytes "abce") 2 (bytes "3") [.mk (bytes "cd") (some (bytes "2")) []] =
      some [.mk (bytes "c") none
        [.mk (bytes "d") (some (bytes "2")) [], .mk (bytes "bce") (some (bytes "3")) []]] ∧
    (bytes "abce").drop (2 + 1) = bytes "e" :=
  ⟨by decide, by decide, rfl, by decide⟩

/-- C18 (fails on the code): in `set("abc","3")` after `set("ab")`, `set("abcd")`
the search stops at node `ab` with `key_index = 2` and the key ends inside the
label `cd`; the split child `c` gets no value and two children, `d` and a new
leaf `bc` that carries the value, and `get("abc")` is absent afterwards. -/
theorem C18_key_ends_inside_label :
    un_thread_safe_get_node treeAbAbcd (bytes "abc") false = ⟨2, [0]⟩ ∧
    common_len ((bytes "abc").drop 2) (bytes "cd") = (bytes "abc").length - 2 ∧
    set_break_down (bytes "abc") 2 (bytes "3") [.mk (bytes "cd") (some (bytes "2")) []] =
      some [.mk (bytes "c") none
        [.mk (bytes "d") (some (bytes "2")) [], .mk (bytes "bc") (some (bytes "3")) []]] ∧
    get (set treeAbAbcd (bytes "abc") (bytes "3")).1 (bytes "abc") = none :=
  ⟨by decide, by decide, rfl, by decide⟩

/-- C19: for every tree and key, the strict node search returns a node and a
`key_index` that is at most the key length; the labels on the path from the
dummy root to the node, concatenated, are the first `key_index` bytes of the
key; and if `key_index` is less than the key length, no child of the node has a
label that is a prefix of the rest of the key. -/
theorem C19_strict_search (t : RadixTreeRoot) (key : ByteSlice) :
    (un_thread_safe_get_node t key false).key_index ≤ key.length ∧
    pathKey t.node (un_thread_safe_get_node t key false).node =
      key.take (un_thread_safe_get_node t key false).key_index ∧
    ∃ n, nodeAt t.node (un_thread_safe_get_node t key false).node = some n ∧
      ((un_thread_safe_get_node t key false).key_index < key.length →
        ∀ ch ∈ n.children,
          ¬ ch.key <+: key.drop (un_thread_safe_get_node t key false).key_index) := by
  have hok := un_thread_safe_get_node_ok t key false
  have hstop : StopAt key t.node (un_thread_safe_get_node t key false) := by
    unfold un_thread_safe_get_node
    split
    · rename_i h0
      intro hlt
      simp only at hlt
      omega
    · exact get_node_from_stop key t.node 0
  generalize un_thread_safe_get_node t key false = r at hok hstop
  obtain ⟨h1, h2, h3⟩ := hok
  have hp : pathKey t.node r.node <+: key := by
    rcases h3 with h3 | ⟨h3, _⟩
    · simpa using h3
    · simp at h3
  have hle := hp.length_le
  refine ⟨by omega, ?_, ?_⟩
  · have := List.prefix_iff_eq_take.1 hp
    rw [this]
    congr 1
    omega
  · obtain ⟨n, hn⟩ := Option.isSome_iff_exists.1 h1
    refine ⟨n, hn, fun hlt => ?_⟩
    obtain ⟨m, hm, hch⟩ := hstop hlt
    rw [hn] at hm
    cases hm
    exact hch

/-- C20: for every node `n` and index `i` at most the length of its label,
`split_node(i, n, null)` leaves `n` with the first `i` label bytes, no value and
one child that holds the rest of the label with the old value and children, and
`merge_radix_branches` of the result with that child gives back `n`. -/
theorem C20_merge_inverts_split (n : RadixTreeNode) (i : Nat) (hi : i ≤ n.key.length) :
    (split_node i n none).key = n.key.take i ∧
    (split_node i n none).content = none ∧
    (split_node i n none).children = [.mk (n.key.drop i) n.content n.children] ∧
    merge_radix_branches (split_node i n none) (.mk (n.key.drop i) n.content n.children) = n := by
  cases n with
  | mk k c cs =>
    simp only [RadixTreeNode.key] at hi
    have htake : List.take (k.length - i) (List.drop i k) = List.drop i k := by
      apply List.take_of_length_le
      simp
    simp [split_node, merge_radix_branches, RadixTreeNode.key, RadixTreeNode.content,
      RadixTreeNode.children, htake]

/-- Witness for C20: the node `cd` with value `2` and one child, split at 1. -/
theorem C20_merge_inverts_split_witness :
    merge_radix_branches
        (split_node 1 (.mk (bytes "cd") (some (bytes "2")) [.mk (bytes "e") none []]) none)
        (.mk ((bytes "cd").drop 1) (some (bytes "2")) [.mk (bytes "e") none []]) =
      .mk (bytes "cd") (some (bytes "2")) [.mk (bytes "e") none []] :=
  (C20_merge_inverts_split (.mk (bytes "cd") (some (bytes "2")) [.mk (bytes "e") none []]) 1
    (by decide)).2.2.2

/-! ## Lemmas for the third group of claims -/

theorem keyValuesChildren_drop (pre : ByteSlice) (cs : List RadixTreeNode) (i : Nat)
    (c : RadixTreeNode) (h : cs[i]? = some c) :
    keyValuesChildren pre (cs.drop i) =
      keyValuesNode (pre ++ c.key) c ++ keyValuesChildren pre (cs.drop (i + 1)) := by
  have hd : cs.drop i = c :: cs.drop (i + 1) := by
    obtain ⟨hlt, hc⟩ := List.getElem?_eq_some.1 h
    rw [← hc]
    exact List.drop_eq_getElem_cons hlt
  rw [hd, keyValuesChildren]

theorem countNodes_drop (cs : List RadixTreeNode) (i : Nat) (c : RadixTreeNode)
    (h : cs[i]? = some c) :
    countNodes (cs.drop i) = countNodes c.children + 1 + countNodes (cs.drop (i + 1)) := by
  have hd : cs.drop i = c :: cs.drop (i + 1) := by
    obtain ⟨hlt, hc⟩ := List.getElem?_eq_some.1 h
    rw [← hc]
    exact List.drop_eq_getElem_cons hlt
  rw [hd, countNodes, countNode_eq]
  omega

theorem keyValuesNode_eq (pre : ByteSlice) (n : RadixTreeNode) :
    keyValuesNode pre n =
      (match n.content with
        | some v => [(pre, v)]
        | none => []) ++ keyValuesChildren pre n.children := by
  cases n with
  | mk k c cs => cases c <;> simp [keyValuesNode, RadixTreeNode.content, RadixTreeNode.children]

theorem walker_pop (u : Bool) (n : RadixTreeNode) (ns : List RadixTreeNode)
    (ks : List ByteSlice) (i : Nat) (is : List Nat) (st : List RadixTreeNode)
    (h : framesOk ns is) :
    WalkerOk (RadixTreeBranchWalker.remove_node_child ⟨true, u, n :: ns, ks, i :: is, st⟩) ∧
    pending (RadixTreeBranchWalker.remove_node_child ⟨true, u, n :: ns, ks, i :: is, st⟩) =
      pendingBelow ns is ∧
    work (RadixTreeBranchWalker.remove_node_child ⟨true, u, n :: ns, ks, i :: is, st⟩) =
      workBelow ns is := by
  cases ns with
  | nil =>
    cases is with
    | nil =>
      simp [RadixTreeBranchWalker.remove_node_child, WalkerOk, pending, work, pendingBelow,
        workBelow]
    | cons j js => simp [framesOk] at h
  | cons m ms =>
    cases is with
    | nil => simp [framesOk] at h
    | cons j js =>
      simp only [framesOk] at h
      refine ⟨?_, ?_, ?_⟩
      · simp only [RadixTreeBranchWalker.remove_node_child, List.tail_cons, WalkerOk]
        exact ⟨h.1, h.2⟩
      · simp [RadixTreeBranchWalker.remove_node_child, pending, pendingBelow]
      · simp [RadixTreeBranchWalker.remove_node_child, work, workBelow]

theorem next_step :
    ∀ (fuel : Nat) (w : RadixTreeBranchWalker), WalkerOk w → work w < fuel →
      ∃ r w1, w.next fuel = some (r, w1) ∧
        r.map (fun v => v.value) = ((pending w).head?).map Prod.snd ∧ WalkerOk w1 ∧
        work w1 ≤ work w ∧ pending w1 = (pending w).tail := by
  intro fuel
  induction fuel with
  | zero => intro w _ h; omega
  | succ fuel ih =>
    intro w hok hw
    obtain ⟨r, u, ns, ks, is, st⟩ := w
    cases ns with
    | nil =>
      cases is with
      | nil =>
        exact ⟨none, ⟨r, true, [], ks, [], st⟩, by simp [RadixTreeBranchWalker.next],
          by simp [pending], by simp [WalkerOk], by simp [work], by simp [pending]⟩
      | cons j js => simp [WalkerOk] at hok
    | cons n ns =>
      cases is with
      | nil => simp [WalkerOk] at hok
      | cons i is =>
        simp only [WalkerOk] at hok
        obtain ⟨hi, hfr⟩ := hok
        cases hc : (if r = true then none else n.content) with
        | some v =>
          have hr : r = false := by
            cases r
            · rfl
            · simp at hc
          subst hr
          simp only [Bool.false_eq_true, if_false] at hc
          refine ⟨some ⟨RadixTreeBranchWalker.get_current_key
              ⟨false, u, n :: ns, ks, i :: is, st⟩, v⟩,
            ⟨true, u, n :: ns, ks, i :: is, st⟩, ?_, ?_, ?_, ?_, ?_⟩
          · simp [RadixTreeBranchWalker.next, hc]
          · simp [pending, hc]
          · simp only [WalkerOk]
            exact ⟨hi, hfr⟩
          · simp [work]
          · simp [pending, hc]
        | none =>
          have hpend : pending ⟨r, u, n :: ns, ks, i :: is, st⟩ =
              keyValuesChildren (stackKey (n :: ns)) (n.children.drop i) ++ pendingBelow ns is := by
            simp [pending, hc]
          have hwork : 3 * countNodes (n.children.drop i) + 1 + workBelow ns is ≤
              work ⟨r, u, n :: ns, ks, i :: is, st⟩ := by
            simp only [work]
            omega
          by_cases hlen : i = n.children.length
          · obtain ⟨hok2, hp2, hw2⟩ := walker_pop u n ns ks i is st hfr
            have hdrop : n.children.drop i = [] := by
              rw [hlen]
              exact List.drop_length _
            rw [hdrop] at hpend hwork
            simp only [keyValuesChildren, List.nil_append, countNodes] at hpend hwork
            obtain ⟨r1, w1, h1, hv, h2, h3, h4⟩ := ih _ hok2 (by rw [hw2]; omega)
            refine ⟨r1, w1, ?_, ?_, h2, ?_, ?_⟩
            · rw [← h1]
              simp [RadixTreeBranchWalker.next, hc, hlen]
            · rw [hv, hp2, hpend]
            · rw [hw2] at h3
              omega
            · rw [h4, hp2, hpend]
          · have hlt : i < n.children.length := by omega
            obtain ⟨c, hcget⟩ : ∃ c, n.children[i]? = some c :=
              ⟨n.children[i], List.getElem?_eq_getElem hlt⟩
            have hok2 : WalkerOk ⟨false, u, c :: n :: ns, n.key :: ks, 0 :: i :: is, st.tail⟩ := by
              simp only [WalkerOk, framesOk]
              exact ⟨Nat.zero_le _, hlt, hfr⟩
            have hp2 : pending ⟨false, u, c :: n :: ns, n.key :: ks, 0 :: i :: is, st.tail⟩ =
                pending ⟨r, u, n :: ns, ks, i :: is, st⟩ := by
              rw [hpend, keyValuesChildren_drop _ _ _ _ hcget]
              simp only [pending, pendingBelow, Bool.false_eq_true, if_false, List.drop_zero]
              rw [keyValuesNode_eq]
              simp [stackKey, List.append_assoc]
            have hw2 : work ⟨false, u, c :: n :: ns, n.key :: ks, 0 :: i :: is, st.tail⟩ <
                work ⟨r, u, n :: ns, ks, i :: is, st⟩ := by
              simp only [work, workBelow, Bool.false_eq_true, if_false, List.drop_zero]
              rw [countNodes_drop _ _ _ hcget]
              omega
            obtain ⟨r1, w1, h1, hv, h2, h3, h4⟩ := ih _ hok2 (by omega)
            refine ⟨r1, w1, ?_, ?_, h2, by omega, ?_⟩
            · rw [← h1]
              simp [RadixTreeBranchWalker.next, hc, hlen, hcget,
                RadixTreeBranchWalker.add_node_child]
            · rw [hv, hp2]
            · rw [h4, hp2]

theorem nthNext_pending :
    ∀ (m fuel : Nat) (w : RadixTreeBranchWalker), WalkerOk w → work w < fuel →
      (nthNext fuel m w).map (fun r => r.map (fun v => v.value)) =
        some (((pending w)[m]?).map Prod.snd) := by
  intro m
  induction m with
  | zero =>
    intro fuel w hok hw
    obtain ⟨r1, w1, h1, hv, _, _, _⟩ := next_step fuel w hok hw
    simp only [nthNext, h1, Option.map_some', hv]
    cases pending w <;> simp
  | succ m ih =>
    intro fuel w hok hw
    obtain ⟨r1, w1, h1, _, h2, h3, h4⟩ := next_step fuel w hok hw
    simp only [nthNext, h1]
    rw [ih fuel w1 h2 (by omega), h4]
    cases pending w <;> simp

theorem create_ok (n : RadixTreeNode) (fk : ByteSlice) (kc : Nat) (u : Bool) :
    WalkerOk (RadixTreeBranchWalker.create (some n) fk kc u) ∧
    pending (RadixTreeBranchWalker.create (some n) fk kc u) = keyValuesNode n.key n ∧
    work (RadixTreeBranchWalker.create (some n) fk kc u) + 1 = 3 * countNode n := by
  refine ⟨?_, ?_, ?_⟩
  · simp [RadixTreeBranchWalker.create, RadixTreeBranchWalker.add_node_child, WalkerOk, framesOk]
  · rw [keyValuesNode_eq]
    simp [RadixTreeBranchWalker.create, RadixTreeBranchWalker.add_node_child, pending,
      pendingBelow, stackKey]
  · rw [countNode_eq]
    simp [RadixTreeBranchWalker.create, RadixTreeBranchWalker.add_node_child, work, workBelow]
    omega

/-- With `3 * countNode n` loop rounds allowed, the values returned by the
successive `next` calls of a walker mounted on `n` are those of the
value-carrying nodes below and including `n` in depth-first pre-order, followed
by the null pointer on every later call.  Keys are not covered. -/
theorem nthNext_values (n : RadixTreeNode) (fk : ByteSlice) (kc : Nat) (u : Bool)
    (extra m : Nat) :
    (nthNext (3 * countNode n + extra) m (RadixTreeBranchWalker.create (some n) fk kc u)).map
        (fun r => r.map (fun v => v.value)) =
      some (((keyValuesNode n.key n)[m]?).map Prod.snd) := by
  obtain ⟨hok, hp, hw⟩ := create_ok n fk kc u
  rw [nthNext_pending m _ _ hok (by omega), hp]

theorem everyChild_iff (q : RadixTreeNode → Bool) (cs : List RadixTreeNode) :
    everyChild q cs = true ↔ ∀ ch ∈ cs, everyNode q ch = true := by
  induction cs with
  | nil => simp [everyChild]
  | cons c cs ih => simp [everyChild, ih]

theorem everyNode_iff (q : RadixTreeNode → Bool) (n : RadixTreeNode) :
    everyNode q n = true ↔ q n = true ∧ everyChild q n.children = true := by
  cases n with
  | mk k c cs => simp [everyNode, RadixTreeNode.children]

theorem minimalNode_eq : ∀ n, minimalNode n = everyNode valueOrBranch n := by
  intro n
  induction n using RadixTreeNode.induct with
  | h k c cs ih =>
    have hcs : minimalChildren cs = everyChild valueOrBranch cs := by
      induction cs with
      | nil => rfl
      | cons d ds ihd =>
        simp only [minimalChildren, everyChild]
        rw [ih d (List.mem_cons_self _ _),
          ihd (fun ch hch => ih ch (List.mem_cons_of_mem _ hch))]
    simp [minimalNode, everyNode, hcs, valueOrBranch, RadixTreeNode.content,
      RadixTreeNode.children]

theorem minimalChildren_eq (cs : List RadixTreeNode) :
    minimalChildren cs = everyChild valueOrBranch cs := by
  induction cs with
  | nil => rfl
  | cons d ds ih => simp only [minimalChildren, everyChild, minimalNode_eq, ih]

theorem everyChild_set (q : RadixTreeNode → Bool) (cs : List RadixTreeNode) (i : Nat)
    (x : RadixTreeNode) (h : everyChild q cs = true) (hx : everyNode q x = true) :
    everyChild q (cs.set i x) = true := by
  rw [everyChild_iff] at h ⊢
  intro ch hch
  rcases List.mem_or_eq_of_mem_set hch with h1 | h1
  · exact h ch h1
  · rw [h1]; exact hx

theorem everyChild_eraseIdx (q : RadixTreeNode → Bool) (cs : List RadixTreeNode) (i : Nat)
    (h : everyChild q cs = true) : everyChild q (cs.eraseIdx i) = true := by
  rw [everyChild_iff] at h ⊢
  intro ch hch
  exact h ch (List.mem_of_mem_eraseIdx hch)

theorem modifyAt_everyNode (q : RadixTreeNode → Bool) (f : RadixTreeNode → RadixTreeNode)
    (hq : ∀ k c cs i x, q (.mk k c (cs.set i x)) = q (.mk k c cs)) :
    ∀ (n : RadixTreeNode) (p : List Nat), everyNode q n = true →
      (∀ m, nodeAt n p = some m → everyNode q m = true → everyNode q (f m) = true) →
      everyNode q (modifyAt f n p) = true := by
  intro n
  induction n using RadixTreeNode.induct with
  | h k c cs ih =>
    intro p hn hf
    cases p with
    | nil => exact hf _ rfl hn
    | cons i rest =>
      simp only [modifyAt]
      cases hget : cs[i]? with
      | none => simpa using hn
      | some ch =>
        simp only
        have hmem : ch ∈ cs := List.getElem?_mem hget
        rw [everyNode_iff] at hn ⊢
        simp only [RadixTreeNode.children] at hn ⊢
        refine ⟨by rw [hq]; exact hn.1, ?_⟩
        apply everyChild_set q cs i _ hn.2
        apply ih ch hmem rest ((everyChild_iff q cs).1 hn.2 ch hmem)
        intro m hm
        apply hf m
        simp only [nodeAt, hget]
        exact hm

theorem modifyAt_everyChild (q : RadixTreeNode → Bool) (f : RadixTreeNode → RadixTreeNode)
    (hq : ∀ k c cs i x, q (.mk k c (cs.set i x)) = q (.mk k c cs))
    (n : RadixTreeNode) (p : List Nat) (hn : everyChild q n.children = true)
    (hroot : p = [] → everyChild q (f n).children = true)
    (hf : ∀ m, p ≠ [] → nodeAt n p = some m → everyNode q m = true → everyNode q (f m) = true) :
    everyChild q (modifyAt f n p).children = true := by
  cases n with
  | mk k c cs =>
    cases p with
    | nil => exact hroot rfl
    | cons i rest =>
      simp only [modifyAt]
      cases hget : cs[i]? with
      | none => simpa using hn
      | some ch =>
        simp only [RadixTreeNode.children] at hn ⊢
        have hmem : ch ∈ cs := List.getElem?_mem hget
        apply everyChild_set q cs i _ hn
        apply modifyAt_everyNode q f hq ch rest ((everyChild_iff q cs).1 hn ch hmem)
        intro m hm
        apply hf m (by simp)
        simp only [nodeAt, hget]
        exact hm

theorem everyNode_merge (q : RadixTreeNode → Bool) (parent o : RadixTreeNode)
    (ho : everyNode q o = true)
    (hq : q (.mk (parent.key ++ o.key) o.content o.children) = true) :
    everyNode q (merge_radix_branches parent o) = true := by
  rw [everyNode_iff] at ho ⊢
  exact ⟨hq, ho.2⟩

theorem cut_other_mem (i : Nat) (cs : List RadixTreeNode) (o : RadixTreeNode)
    (h : (if i = 0 then cs[1]? else cs[0]?) = some o) : o ∈ cs := by
  split at h
  · exact List.getElem?_mem h
  · exact List.getElem?_mem h

theorem key_mk (k : ByteSlice) (c : Option ByteSlice) (cs : List RadixTreeNode) :
    (RadixTreeNode.mk k c cs).key = k := rfl

theorem content_mk (k : ByteSlice) (c : Option ByteSlice) (cs : List RadixTreeNode) :
    (RadixTreeNode.mk k c cs).content = c := rfl

theorem children_mk (k : ByteSlice) (c : Option ByteSlice) (cs : List RadixTreeNode) :
    (RadixTreeNode.mk k c cs).children = cs := rfl

theorem cut_leaf_eq (pr : Bool) (i : Nat) (parent b : RadixTreeNode)
    (hb : parent.children[i]? = some b) (hleaf : b.children = []) :
    un_thread_safe_cut_branch pr i parent =
      if parent.children.length = 2 ∧ parent.content.isNone ∧ pr = false then
        match (if i = 0 then parent.children[1]? else parent.children[0]?) with
        | none => parent
        | some o => merge_radix_branches parent o
      else .mk parent.key parent.content (parent.children.eraseIdx i) := by
  unfold un_thread_safe_cut_branch
  rw [hb]
  simp only [hleaf, List.length_nil, if_true]

theorem cut_branch_eq (pr : Bool) (i : Nat) (parent b : RadixTreeNode)
    (hb : parent.children[i]? = some b) (hne : b.children ≠ []) :
    un_thread_safe_cut_branch pr i parent =
      .mk parent.key parent.content (parent.children.set i (.mk b.key none b.children)) := by
  unfold un_thread_safe_cut_branch
  rw [hb]
  have : b.children.length ≠ 0 := by
    intro h0
    exact hne (List.length_eq_zero.1 h0)
  simp only [this, if_false]

theorem cut_minimal (i : Nat) (parent b : RadixTreeNode)
    (hP : everyNode valueOrBranch parent = true) (hb : parent.children[i]? = some b)
    (hleaf : b.children = []) :
    everyNode valueOrBranch (un_thread_safe_cut_branch false i parent) = true := by
  rw [cut_leaf_eq false i parent b hb hleaf]
  have hlt : i < parent.children.length := (List.getElem?_eq_some.1 hb).1
  have hP2 := (everyNode_iff _ _).1 hP
  obtain ⟨hq, hcs⟩ := hP2
  split
  · split
    · exact hP
    · rename_i o ho
      have hmem := cut_other_mem i parent.children o ho
      have heo := (everyChild_iff _ _).1 hcs o hmem
      apply everyNode_merge _ _ _ heo
      rw [everyNode_iff] at heo
      simpa [valueOrBranch, content_mk, children_mk] using heo.1
  · rename_i hcond
    rw [everyNode_iff]
    simp only [children_mk]
    refine ⟨?_, everyChild_eraseIdx _ _ i hcs⟩
    simp only [valueOrBranch, content_mk, children_mk, Bool.or_eq_true,
      decide_eq_true_eq, List.length_eraseIdx_of_lt hlt] at hq ⊢
    rcases hq with hq | hq
    · exact Or.inl hq
    · cases hc : parent.content with
      | some v => simp
      | none =>
        right
        simp only [hc, Option.isNone_none, true_and, and_true] at hcond
        omega

theorem cut_minimal_root (i : Nat) (parent b : RadixTreeNode)
    (hP : everyChild valueOrBranch parent.children = true) (hb : parent.children[i]? = some b)
    (hleaf : b.children = []) :
    everyChild valueOrBranch (un_thread_safe_cut_branch true i parent).children = true := by
  rw [cut_leaf_eq true i parent b hb hleaf]
  simp only [Bool.true_eq_false, and_false, if_false, children_mk]
  exact everyChild_eraseIdx _ _ i hP

theorem nodeAt_append (n : RadixTreeNode) (i : Nat) :
    ∀ (p : List Nat), nodeAt n (p ++ [i]) =
      match nodeAt n p with
      | none => none
      | some m => m.children[i]? := by
  induction n using RadixTreeNode.induct with
  | h k c cs ih =>
    intro p
    cases p with
    | nil =>
      simp only [List.nil_append, nodeAt, RadixTreeNode.children]
      cases cs[i]? <;> rfl
    | cons j rest =>
      simp only [List.cons_append, nodeAt]
      cases hget : cs[j]? with
      | none => rfl
      | some ch => exact ih ch (List.getElem?_mem hget) rest

theorem cut_none_eq (pr : Bool) (i : Nat) (parent : RadixTreeNode)
    (hb : parent.children[i]? = none) : un_thread_safe_cut_branch pr i parent = parent := by
  unfold un_thread_safe_cut_branch
  rw [hb]

theorem valueOrBranch_set (k : ByteSlice) (c : Option ByteSlice) (cs : List RadixTreeNode)
    (i : Nat) (x : RadixTreeNode) :
    valueOrBranch (.mk k c (cs.set i x)) = valueOrBranch (.mk k c cs) := by
  simp [valueOrBranch, content_mk, children_mk]

theorem hasLabel_set (k : ByteSlice) (c : Option ByteSlice) (cs : List RadixTreeNode)
    (i : Nat) (x : RadixTreeNode) :
    hasLabel (.mk k c (cs.set i x)) = hasLabel (.mk k c cs) := rfl

theorem cut_root_fields (i : Nat) (parent : RadixTreeNode) :
    (un_thread_safe_cut_branch true i parent).key = parent.key ∧
    (un_thread_safe_cut_branch true i parent).content = parent.content := by
  unfold un_thread_safe_cut_branch
  cases parent.children[i]? with
  | none => exact ⟨rfl, rfl⟩
  | some b =>
    simp only [Bool.true_eq_false, and_false, if_false]
    split <;> exact ⟨rfl, rfl⟩

theorem modifyAt_cons_fields (f : RadixTreeNode → RadixTreeNode) (n : RadixTreeNode) (j : Nat)
    (rest : List Nat) :
    (modifyAt f n (j :: rest)).key = n.key ∧ (modifyAt f n (j :: rest)).content = n.content := by
  cases n with
  | mk k c cs =>
    simp only [modifyAt]
    cases cs[j]? <;> exact ⟨rfl, rfl⟩

theorem delete_key_minimal (t : RadixTreeRoot) (k : ByteSlice) (hmin : minimalTree t = true)
    (hleaf : cutsLeaf t k = true) : minimalTree (delete_key t k).1 = true := by
  unfold minimalTree at hmin ⊢
  rw [minimalChildren_eq] at hmin ⊢
  unfold delete_key
  split
  · by_cases hc : t.node.content.isSome = true
    · simpa [hc, children_mk] using hmin
    · simpa [hc] using hmin
  · unfold cutsLeaf at hleaf
    cases hd : delete_key_from k t.node 0 with
    | none => exact hmin
    | some pi =>
      obtain ⟨p, i⟩ := pi
      rw [hd] at hleaf
      simp only at hleaf ⊢
      apply modifyAt_everyChild valueOrBranch _ valueOrBranch_set t.node p hmin
      · intro hp
        subst hp
        simp only [List.nil_append, List.isEmpty_nil] at hleaf ⊢
        cases hb : t.node.children[i]? with
        | none => rw [cut_none_eq true i _ hb]; exact hmin
        | some b =>
          have hn : nodeAt t.node [i] = some b := by
            rw [show [i] = [] ++ [i] from rfl, nodeAt_append]
            simpa [nodeAt] using hb
          rw [hn] at hleaf
          exact cut_minimal_root i t.node b hmin hb (List.isEmpty_iff.1 hleaf)
      · intro m hp hm hem
        have hpe : p.isEmpty = false := by
          cases p with
          | nil => exact absurd rfl hp
          | cons j rest => rfl
        rw [hpe]
        cases hb : m.children[i]? with
        | none => rw [cut_none_eq false i _ hb]; exact hem
        | some b =>
          have hn : nodeAt t.node (p ++ [i]) = some b := by
            rw [nodeAt_append, hm]
            exact hb
          rw [hn] at hleaf
          exact cut_minimal i m b hem hb (List.isEmpty_iff.1 hleaf)

theorem delete_key_root_fields (t : RadixTreeRoot) (k : ByteSlice) :
    (delete_key t k).1.node.key = t.node.key ∧
    (k ≠ [] → (delete_key t k).1.node.content = t.node.content) := by
  unfold delete_key
  split
  · rename_i h0
    have hk : k = [] := List.length_eq_zero.1 h0
    by_cases hc : t.node.content.isSome = true
    · simp [hc, hk, key_mk]
    · simp [hc, hk]
  · cases delete_key_from k t.node 0 with
    | none => exact ⟨rfl, fun _ => rfl⟩
    | some pi =>
      obtain ⟨p, i⟩ := pi
      cases p with
      | nil =>
        have := cut_root_fields i t.node
        simp only [modifyAt, List.isEmpty_nil]
        exact ⟨this.1, fun _ => this.2⟩
      | cons j rest =>
        have := modifyAt_cons_fields (un_thread_safe_cut_branch false i) t.node j rest
        simp only [List.isEmpty_cons]
        exact ⟨this.1, fun _ => this.2⟩

theorem common_len_le_right : ∀ a b : ByteSlice, common_len a b ≤ b.length
  | [], _ => by simp [common_len]
  | _ :: _, [] => by simp [common_len]
  | x :: a, y :: b => by
    have := common_len_le_right a b
    by_cases h : x = y
    · simp [common_len, h]; omega
    · simp [common_len, h]

theorem common_len_eq_length_right :
    ∀ a b : ByteSlice, common_len a b = b.length → b <+: a
  | _, [] => by simp
  | [], _ :: _ => by simp [common_len]
  | x :: a, y :: b => by
    by_cases h : x = y
    · subst h
      intro hc
      simp [common_len] at hc
      have := common_len_eq_length_right a b hc
      simpa [List.prefix_cons_inj] using this
    · simp [common_len, h]

theorem un_thread_safe_get_node_stop (t : RadixTreeRoot) (key : ByteSlice) :
    StopAt key t.node (un_thread_safe_get_node t key false) := by
  unfold un_thread_safe_get_node
  split
  · rename_i h0
    intro hlt
    simp only at hlt
    omega
  · exact get_node_from_stop key t.node 0

theorem un_thread_safe_get_node_le (t : RadixTreeRoot) (key : ByteSlice) :
    (un_thread_safe_get_node t key false).key_index ≤ key.length := by
  obtain ⟨_, h2, h3⟩ := un_thread_safe_get_node_ok t key false
  rcases h3 with h3 | ⟨h3, _⟩
  · have := h3.length_le
    simp only [List.drop_zero] at this
    omega
  · simp at h3

theorem everyNode_hasLabel_mk (k : ByteSlice) (c : Option ByteSlice) (cs : List RadixTreeNode) :
    everyNode hasLabel (.mk k c cs) = true ↔ 1 ≤ k.length ∧ everyChild hasLabel cs = true := by
  rw [everyNode_iff]
  simp [hasLabel, key_mk, children_mk]

theorem set_break_down_labels (key : ByteSlice) (ki : Nat) (value : ByteSlice) :
    ∀ (cs : List RadixTreeNode), everyChild hasLabel cs = true →
      (∀ ch ∈ cs, ¬ ch.key <+: key.drop ki) →
      ∀ cs1, set_break_down key ki value cs = some cs1 → everyChild hasLabel cs1 = true := by
  intro cs
  induction cs with
  | nil => intro _ _ cs1 h; simp [set_break_down] at h
  | cons child rest ih =>
    intro hcs hstop cs1 h
    simp only [everyChild, Bool.and_eq_true] at hcs
    obtain ⟨hchild, hrest⟩ := hcs
    rw [set_break_down] at h
    simp only at h
    split at h
    · rename_i hcommon
      simp only [Option.some.injEq] at h
      subst h
      have hle1 := common_len_le_right (key.drop ki) child.key
      have hle2 := common_len_le_left (key.drop ki) child.key
      simp only [List.length_drop] at hle2
      have hlt : common_len (key.drop ki) child.key < child.key.length := by
        rcases Nat.lt_or_ge (common_len (key.drop ki) child.key) child.key.length with h1 | h1
        · exact h1
        · exfalso
          exact hstop child (List.mem_cons_self _ _)
            (common_len_eq_length_right _ _ (by omega))
      have hch := ((everyNode_iff _ _).1 hchild).2
      simp only [everyChild, Bool.and_eq_true]
      refine ⟨?_, hrest⟩
      by_cases hk : common_len (key.drop ki) child.key = key.length
      · simp only [hk, ne_eq, not_true_eq_false, if_false, if_true, split_node, key_mk,
          children_mk]
        rw [everyNode_hasLabel_mk]
        refine ⟨by simp only [List.length_take]; omega, ?_⟩
        simp only [everyChild, Bool.and_eq_true, and_true]
        rw [everyNode_hasLabel_mk]
        exact ⟨by simp only [List.length_take, List.length_drop]; omega, hch⟩
      · simp only [hk, ne_eq, not_false_eq_true, if_true, if_false, split_node]
        rw [everyNode_hasLabel_mk]
        refine ⟨by simp only [List.length_take]; omega, ?_⟩
        simp only [everyChild, Bool.and_eq_true, and_true]
        refine ⟨?_, ?_⟩
        · rw [everyNode_hasLabel_mk]
          exact ⟨by simp only [List.length_take, List.length_drop]; omega, hch⟩
        · rw [everyNode_hasLabel_mk]
          exact ⟨by simp only [List.length_take, List.length_drop]; omega, rfl⟩
    · cases hr : set_break_down key ki value rest with
      | none => simp [hr] at h
      | some rest1 =>
        simp only [hr, Option.some.injEq] at h
        subst h
        simp only [everyChild, Bool.and_eq_true]
        exact ⟨hchild, ih hrest (fun ch hch => hstop ch (List.mem_cons_of_mem _ hch)) rest1 hr⟩

theorem everyChild_append_one (q : RadixTreeNode → Bool) (cs : List RadixTreeNode)
    (x : RadixTreeNode) (h : everyChild q cs = true) (hx : everyNode q x = true) :
    everyChild q (cs ++ [x]) = true := by
  rw [everyChild_iff] at h ⊢
  intro ch hch
  rcases List.mem_append.1 hch with h1 | h1
  · exact h ch h1
  · rw [List.mem_singleton.1 h1]; exact hx

theorem set_at_node_labels (key : ByteSlice) (ki : Nat) (value : ByteSlice) (n : RadixTreeNode)
    (hki : ki < key.length) (hcs : everyChild hasLabel n.children = true)
    (hstop : ∀ ch ∈ n.children, ¬ ch.key <+: key.drop ki) :
    (set_at_node key ki value n).key = n.key ∧
    everyChild hasLabel (set_at_node key ki value n).children = true := by
  unfold set_at_node
  cases hb : set_break_down key ki value n.children with
  | some cs1 =>
    exact ⟨rfl, set_break_down_labels key ki value n.children hcs hstop cs1 hb⟩
  | none =>
    refine ⟨rfl, ?_⟩
    simp only [children_mk]
    apply everyChild_append_one _ _ _ hcs
    rw [everyNode_hasLabel_mk]
    exact ⟨by simp only [List.length_take, List.length_drop]; omega, rfl⟩

theorem set_labels (t : RadixTreeRoot) (key value : ByteSlice)
    (h : labelsNonEmpty t = true) : labelsNonEmpty (set t key value).1 = true := by
  unfold labelsNonEmpty at h ⊢
  have hle := un_thread_safe_get_node_le t key
  have hstop := un_thread_safe_get_node_stop t key
  unfold set
  generalize un_thread_safe_get_node t key false = r at hle hstop
  have hval : everyChild hasLabel
      (modifyAt (fun n => RadixTreeNode.mk n.key (some value) n.children) t.node r.node).children
        = true := by
    apply modifyAt_everyChild hasLabel _ hasLabel_set t.node r.node h
    · intro _
      exact h
    · intro m _ _ hem
      rw [everyNode_iff] at hem ⊢
      exact ⟨hem.1, hem.2⟩
  simp only
  split
  · split
    · exact hval
    · exact hval
  · rename_i hne
    have hlt : r.key_index < key.length := by omega
    obtain ⟨m0, hm0, hch0⟩ := hstop hlt
    apply modifyAt_everyChild hasLabel _ hasLabel_set t.node r.node h
    · intro hp
      rw [hp] at hm0
      simp only [nodeAt, Option.some.injEq] at hm0
      subst hm0
      exact (set_at_node_labels key r.key_index value t.node hlt h hch0).2
    · intro m _ hm hem
      rw [hm0] at hm
      cases hm
      rw [everyNode_iff] at hem ⊢
      obtain ⟨hk, hc⟩ := set_at_node_labels key r.key_index value m0 hlt hem.2 hch0
      refine ⟨?_, hc⟩
      simp only [hasLabel] at hem ⊢
      rw [hk]
      exact hem.1

theorem cut_labels (pr : Bool) (i : Nat) (parent : RadixTreeNode) :
    (everyNode hasLabel parent = true →
      everyNode hasLabel (un_thread_safe_cut_branch pr i parent) = true) ∧
    (everyChild hasLabel parent.children = true →
      everyChild hasLabel (un_thread_safe_cut_branch true i parent).children = true) := by
  cases hb : parent.children[i]? with
  | none =>
    rw [cut_none_eq pr i parent hb, cut_none_eq true i parent hb]
    exact ⟨id, id⟩
  | some b =>
    have hbmem : b ∈ parent.children := List.getElem?_mem hb
    by_cases hleaf : b.children = []
    · rw [cut_leaf_eq pr i parent b hb hleaf, cut_leaf_eq true i parent b hb hleaf]
      constructor
      · intro hP
        obtain ⟨hq, hcs⟩ := (everyNode_iff _ _).1 hP
        split
        · split
          · exact hP
          · rename_i o ho
            have heo := (everyChild_iff _ _).1 hcs o (cut_other_mem i _ o ho)
            apply everyNode_merge _ _ _ heo
            simp only [hasLabel, key_mk, List.length_append, decide_eq_true_eq] at hq ⊢
            omega
        · rw [everyNode_iff]
          exact ⟨hq, everyChild_eraseIdx _ _ i hcs⟩
      · intro hcs
        simp only [Bool.true_eq_false, and_false, if_false, children_mk]
        exact everyChild_eraseIdx _ _ i hcs
    · rw [cut_branch_eq pr i parent b hb hleaf, cut_branch_eq true i parent b hb hleaf]
      have hset : everyChild hasLabel parent.children = true →
          everyChild hasLabel
            (parent.children.set i (RadixTreeNode.mk b.key none b.children)) = true := by
        intro hcs
        apply everyChild_set _ _ _ _ hcs
        have heb := (everyChild_iff _ _).1 hcs b hbmem
        rw [everyNode_iff] at heb ⊢
        exact ⟨heb.1, heb.2⟩
      constructor
      · intro hP
        obtain ⟨hq, hcs⟩ := (everyNode_iff _ _).1 hP
        rw [everyNode_iff]
        exact ⟨hq, hset hcs⟩
      · intro hcs
        exact hset hcs

theorem delete_key_labels (t : RadixTreeRoot) (k : ByteSlice)
    (h : labelsNonEmpty t = true) : labelsNonEmpty (delete_key t k).1 = true := by
  unfold labelsNonEmpty at h ⊢
  unfold delete_key
  split
  · by_cases hc : t.node.content.isSome = true
    · simpa [hc, children_mk] using h
    · simpa [hc] using h
  · cases hd : delete_key_from k t.node 0 with
    | none => exact h
    | some pi =>
      obtain ⟨p, i⟩ := pi
      simp only
      apply modifyAt_everyChild hasLabel _ hasLabel_set t.node p h
      · intro hp
        subst hp
        exact (cut_labels true i t.node).2 h
      · intro m _ _ hem
        exact (cut_labels _ i m).1 hem

theorem runOps_labels :
    ∀ (ops : List Op) (t : RadixTreeRoot), labelsNonEmpty t = true →
      labelsNonEmpty (runOps t ops) = true := by
  intro ops
  induction ops with
  | nil => intro t h; exact h
  | cons op ops ih =>
    intro t h
    apply ih
    cases op with
    | set k v => exact set_labels t k v h
    | delete_key k => exact delete_key_labels t k h

/-! ### Lookup finds every stored pair when siblings differ in their first byte -/

theorem noCommonWith_iff (k : ByteSlice) (cs : List RadixTreeNode) :
    noCommonWith k cs = true ↔ ∀ c ∈ cs, common_len k c.key = 0 := by
  induction cs with
  | nil => simp [noCommonWith]
  | cons c cs ih => simp [noCommonWith, ih]

theorem common_len_zero_not_both (a b l : ByteSlice) (ha : 1 ≤ a.length) (hb : 1 ≤ b.length)
    (h0 : common_len a b = 0) (hal : a <+: l) (hbl : b <+: l) : False := by
  cases a with
  | nil => simp at ha
  | cons x a =>
    cases b with
    | nil => simp at hb
    | cons y b =>
      cases l with
      | nil => simp at hal
      | cons z l =>
        have h1 := (List.cons_prefix_cons.1 hal).1
        have h2 := (List.cons_prefix_cons.1 hbl).1
        subst h1
        subst h2
        simp [common_len] at h0

theorem keyValues_pfx :
    ∀ (n : RadixTreeNode) (pre : ByteSlice) (x : ByteSlice × ByteSlice),
      x ∈ keyValuesNode pre n → pre <+: x.1 := by
  intro n
  induction n using RadixTreeNode.induct with
  | h k c cs ih =>
    have hcs : ∀ (pre : ByteSlice) (x : ByteSlice × ByteSlice),
        x ∈ keyValuesChildren pre cs → pre <+: x.1 := by
      intro pre x
      induction cs with
      | nil => simp [keyValuesChildren]
      | cons d ds ihd =>
        intro hx
        rw [keyValuesChildren] at hx
        rcases List.mem_append.1 hx with h1 | h1
        · exact (List.prefix_append pre d.key).trans (ih d (List.mem_cons_self _ _) _ x h1)
        · exact ihd (fun ch hch => ih ch (List.mem_cons_of_mem _ hch)) h1
    intro pre x hx
    rw [keyValuesNode_eq] at hx
    rcases List.mem_append.1 hx with h1 | h1
    · simp only [content_mk] at h1
      cases c with
      | none => simp at h1
      | some v =>
        simp only [List.mem_singleton] at h1
        rw [h1]
    · exact hcs pre x h1

theorem keyValuesChildren_mem_iff (pre : ByteSlice) (cs : List RadixTreeNode)
    (x : ByteSlice × ByteSlice) :
    x ∈ keyValuesChildren pre cs ↔ ∃ ch ∈ cs, x ∈ keyValuesNode (pre ++ ch.key) ch := by
  induction cs with
  | nil => simp [keyValuesChildren]
  | cons d ds ih => simp [keyValuesChildren, ih]

theorem pfx_drop (pre a key : ByteSlice) (h : pre ++ a <+: key) : a <+: key.drop pre.length := by
  obtain ⟨t, ht⟩ := h
  rw [← ht]
  simp [List.append_assoc]

theorem pfx_length_le_any (key : ByteSlice) (ki : Nat) (ck : ByteSlice)
    (h : ck <+: key.drop ki) (hck : 1 ≤ ck.length) : key.length ≥ ki + ck.length := by
  have h1 := h.length_le
  simp only [List.length_drop] at h1
  omega

theorem get_node_children_finds (key v : ByteSlice) :
    ∀ (cs : List RadixTreeNode),
      (∀ ch ∈ cs, ∀ pre, everyChild hasLabel ch.children = true → distinctFirstBytes ch = true →
        (key, v) ∈ keyValuesNode pre ch →
        (get_node_from key false ch pre.length).key_index = key.length ∧
        ∃ m, nodeAt ch (get_node_from key false ch pre.length).node = some m ∧
          m.content = some v) →
      everyChild hasLabel cs = true → distinctFirstBytesChildren cs = true →
      ∀ (done : List RadixTreeNode) (k : ByteSlice) (c : Option ByteSlice) (pre : ByteSlice),
        (∃ ch ∈ cs, (key, v) ∈ keyValuesNode (pre ++ ch.key) ch) →
        (get_node_children key false cs done.length pre.length).key_index = key.length ∧
        ∃ m, nodeAt (.mk k c (done ++ cs))
            (get_node_children key false cs done.length pre.length).node = some m ∧
          m.content = some v := by
  intro cs
  induction cs with
  | nil =>
    intro _ _ _ done k c pre hex
    obtain ⟨ch, hch, _⟩ := hex
    simp at hch
  | cons hd rest ihr =>
    intro ih hlab hdis done k c pre hex
    simp only [everyChild, Bool.and_eq_true] at hlab
    simp only [distinctFirstBytesChildren, Bool.and_eq_true] at hdis
    obtain ⟨⟨hno, hdhd⟩, hdrest⟩ := hdis
    obtain ⟨hlhd, hlrest⟩ := hlab
    have hhd := (everyNode_iff _ _).1 hlhd
    have hhdlen : 1 ≤ hd.key.length := by simpa [hasLabel] using hhd.1
    have hget : (done ++ hd :: rest)[done.length]? = some hd := get?_append_length done hd rest
    obtain ⟨ch, hch, hmem⟩ := hex
    have hchp : ch.key <+: key.drop pre.length := pfx_drop pre ch.key key (keyValues_pfx _ _ _ hmem)
    rcases List.mem_cons.1 hch with heq | hin
    · subst heq
      have hlen := pfx_length_le_any key pre.length ch.key hchp hhdlen
      rw [get_node_children]
      simp only [hlen, memcmp_eq_of_pfx key pre.length ch.key hchp, if_true]
      have h1 := ih ch (List.mem_cons_self _ _) (pre ++ ch.key) hhd.2 hdhd hmem
      simp only [List.length_append] at h1
      obtain ⟨h2, m, hm, hv⟩ := h1
      refine ⟨h2, m, ?_, hv⟩
      simp only [nodeAt, hget]
      exact hm
    · have hskip : ¬ hd.key <+: key.drop pre.length := by
        intro hp
        have h0 := (noCommonWith_iff _ _).1 hno ch hin
        have hchl := (everyNode_iff _ _).1 ((everyChild_iff _ _).1 hlrest ch hin)
        exact common_len_zero_not_both hd.key ch.key _ hhdlen (by simpa [hasLabel] using hchl.1)
          h0 hp hchp
      have hrec := ihr (fun x hx => ih x (List.mem_cons_of_mem _ hx)) hlrest hdrest
        (done ++ [hd]) k c pre ⟨ch, hin, hmem⟩
      simp only [List.length_append, List.length_singleton, List.append_assoc,
        List.singleton_append] at hrec
      rw [get_node_children]
      split
      · split
        · rename_i hm
          exact absurd (memcmp_eq_pfx key pre.length hd.key hm) hskip
        · exact hrec
      · simpa using hrec

theorem keyValuesChildren_longer (pre : ByteSlice) (cs : List RadixTreeNode)
    (x : ByteSlice × ByteSlice) (hlab : everyChild hasLabel cs = true)
    (hx : x ∈ keyValuesChildren pre cs) : pre.length < x.1.length := by
  obtain ⟨ch, hch, hmem⟩ := (keyValuesChildren_mem_iff pre cs x).1 hx
  have h1 := (keyValues_pfx _ _ _ hmem).length_le
  have h2 := (everyNode_iff _ _).1 ((everyChild_iff _ _).1 hlab ch hch)
  have h3 : 1 ≤ ch.key.length := by simpa [hasLabel] using h2.1
  simp only [List.length_append] at h1
  omega

theorem get_node_from_finds (key v : ByteSlice) :
    ∀ (n : RadixTreeNode) (pre : ByteSlice), everyChild hasLabel n.children = true →
      distinctFirstBytes n = true → (key, v) ∈ keyValuesNode pre n →
      (get_node_from key false n pre.length).key_index = key.length ∧
      ∃ m, nodeAt n (get_node_from key false n pre.length).node = some m ∧
        m.content = some v := by
  intro n
  induction n using RadixTreeNode.induct with
  | h k c cs ih =>
    intro pre hlab hdis hmem
    simp only [children_mk] at hlab
    simp only [distinctFirstBytes] at hdis
    have hpre := keyValues_pfx _ _ _ hmem
    rw [keyValuesNode_eq] at hmem
    simp only [content_mk, children_mk] at hmem
    rw [get_node_from]
    rcases List.mem_append.1 hmem with hown | hch
    · cases c with
      | none => simp at hown
      | some w =>
        simp only [List.mem_singleton, Prod.mk.injEq] at hown
        obtain ⟨hk, hv⟩ := hown
        subst hk
        subst hv
        simp [nodeAt, content_mk]
    · have hlt := keyValuesChildren_longer pre cs (key, v) hlab hch
      simp only [ge_iff_le, Nat.not_le.2 hlt, if_false]
      exact get_node_children_finds key v cs ih hlab hdis [] k c pre
        ((keyValuesChildren_mem_iff pre cs (key, v)).1 hch)

theorem get_complete (t : RadixTreeRoot) (key v : ByteSlice) (hlab : labelsNonEmpty t = true)
    (hdis : distinctFirstBytes t.node = true) (hmem : (key, v) ∈ keyValues t) :
    get t key = some v := by
  unfold labelsNonEmpty at hlab
  unfold keyValues at hmem
  have h1 := get_node_from_finds key v t.node [] hlab hdis hmem
  simp only [List.length_nil] at h1
  unfold get un_thread_safe_get_node
  split
  · rename_i h0
    have hk : key = [] := List.length_eq_zero.1 h0
    subst hk
    rw [keyValuesNode_eq] at hmem
    rcases List.mem_append.1 hmem with hown | hch
    · cases hc : t.node.content with
      | none => simp [hc] at hown
      | some w =>
        simp only [hc, List.mem_singleton, Prod.mk.injEq, true_and] at hown
        simp [contentAt, nodeAt, hc, hown]
    · have := keyValuesChildren_longer [] _ _ hlab hch
      simp at this
  · obtain ⟨h2, m, hm, hv⟩ := h1
    simp [h2, contentAt, hm, hv]

theorem get_iff_keyValues (t : RadixTreeRoot) (key v : ByteSlice)
    (hlab : labelsNonEmpty t = true) (hdis : distinctFirstBytes t.node = true) :
    get t key = some v ↔ (key, v) ∈ keyValues t :=
  ⟨get_some_mem_keyValues t key v, get_complete t key v hlab hdis⟩

/-! ### `delete_key` keeps the first bytes of siblings distinct -/

theorem common_len_zero_iff (a b : ByteSlice) :
    common_len a b = 0 ↔ (a.head? = none ∨ b.head? = none ∨ a.head? ≠ b.head?) := by
  cases a with
  | nil => simp [common_len]
  | cons x a =>
    cases b with
    | nil => simp [common_len]
    | cons y b =>
      by_cases h : x = y <;> simp [common_len, h]

theorem common_len_zero_congr (a b a1 b1 : ByteSlice) (ha : a1.head? = a.head?)
    (hb : b1.head? = b.head?) : common_len a1 b1 = 0 ↔ common_len a b = 0 := by
  rw [common_len_zero_iff, common_len_zero_iff, ha, hb]

theorem distinctFirstBytes_mk (k : ByteSlice) (c : Option ByteSlice) (cs : List RadixTreeNode) :
    distinctFirstBytes (.mk k c cs) = distinctFirstBytesChildren cs := by
  rw [distinctFirstBytes]

theorem distinctFirstBytes_eq (n : RadixTreeNode) :
    distinctFirstBytes n = distinctFirstBytesChildren n.children := by
  cases n with
  | mk k c cs => rw [distinctFirstBytes_mk, children_mk]

theorem distinctChildren_iff (cs : List RadixTreeNode) :
    distinctFirstBytesChildren cs = true ↔
      cs.Pairwise (fun a b => common_len a.key b.key = 0) ∧
      ∀ ch ∈ cs, distinctFirstBytes ch = true := by
  induction cs with
  | nil => simp [distinctFirstBytesChildren]
  | cons c cs ih =>
    simp only [distinctFirstBytesChildren, Bool.and_eq_true, ih, noCommonWith_iff,
      List.pairwise_cons, List.mem_cons, forall_eq_or_imp]
    tauto

theorem pairwise_set_congr {α : Type} (R : α → α → Prop) (x : α) :
    ∀ (cs : List α) (j : Nat) (old : α), cs[j]? = some old →
      (∀ y, R old y → R x y) → (∀ y, R y old → R y x) →
      cs.Pairwise R → (cs.set j x).Pairwise R := by
  intro cs
  induction cs with
  | nil => intro j old h; simp at h
  | cons a as ih =>
    intro j old hget h1 h2 hp
    rw [List.pairwise_cons] at hp
    cases j with
    | zero =>
      simp only [List.getElem?_cons_zero, Option.some.injEq] at hget
      subst hget
      simp only [List.set_cons_zero, List.pairwise_cons]
      exact ⟨fun y hy => h1 y (hp.1 y hy), hp.2⟩
    | succ j =>
      simp only [List.getElem?_cons_succ] at hget
      simp only [List.set_cons_succ, List.pairwise_cons]
      refine ⟨?_, ih j old hget h1 h2 hp.2⟩
      intro y hy
      rcases List.mem_or_eq_of_mem_set hy with h3 | h3
      · exact hp.1 y h3
      · rw [h3]
        exact h2 a (hp.1 old (List.getElem?_mem hget))

theorem distinctChildren_set (cs : List RadixTreeNode) (j : Nat) (old x : RadixTreeNode)
    (hget : cs[j]? = some old) (hhead : x.key.head? = old.key.head?)
    (hx : distinctFirstBytes x = true) (h : distinctFirstBytesChildren cs = true) :
    distinctFirstBytesChildren (cs.set j x) = true := by
  rw [distinctChildren_iff] at h ⊢
  refine ⟨?_, ?_⟩
  · apply pairwise_set_congr _ x cs j old hget _ _ h.1
    · intro y hy
      exact (common_len_zero_congr old.key y.key x.key y.key hhead rfl).2 hy
    · intro y hy
      exact (common_len_zero_congr y.key old.key y.key x.key rfl hhead).2 hy
  · intro ch hch
    rcases List.mem_or_eq_of_mem_set hch with h1 | h1
    · exact h.2 ch h1
    · rw [h1]; exact hx

theorem distinctChildren_eraseIdx (cs : List RadixTreeNode) (i : Nat)
    (h : distinctFirstBytesChildren cs = true) :
    distinctFirstBytesChildren (cs.eraseIdx i) = true := by
  rw [distinctChildren_iff] at h ⊢
  exact ⟨h.1.sublist (List.eraseIdx_sublist cs i),
    fun ch hch => h.2 ch (List.mem_of_mem_eraseIdx hch)⟩

theorem head?_append_left (a b : ByteSlice) (ha : 1 ≤ a.length) : (a ++ b).head? = a.head? := by
  cases a with
  | nil => simp at ha
  | cons x a => rfl

theorem cut_distinct (pr : Bool) (i : Nat) (parent : RadixTreeNode)
    (hD : distinctFirstBytes parent = true) (hlab : pr = false → 1 ≤ parent.key.length) :
    distinctFirstBytes (un_thread_safe_cut_branch pr i parent) = true ∧
    (un_thread_safe_cut_branch pr i parent).key.head? = parent.key.head? := by
  have hcs : distinctFirstBytesChildren parent.children = true := by
    rw [← distinctFirstBytes_eq]; exact hD
  cases hb : parent.children[i]? with
  | none =>
    rw [cut_none_eq pr i parent hb]
    exact ⟨hD, rfl⟩
  | some b =>
    have hbmem : b ∈ parent.children := List.getElem?_mem hb
    by_cases hleaf : b.children = []
    · rw [cut_leaf_eq pr i parent b hb hleaf]
      split
      · rename_i hcond
        split
        · exact ⟨hD, rfl⟩
        · rename_i o ho
          have hmem := cut_other_mem i _ o ho
          refine ⟨?_, ?_⟩
          · simp only [merge_radix_branches, distinctFirstBytes_mk]
            rw [← distinctFirstBytes_eq]
            exact ((distinctChildren_iff _).1 hcs).2 o hmem
          · simp only [merge_radix_branches, key_mk]
            exact head?_append_left _ _ (hlab hcond.2.2)
      · refine ⟨?_, rfl⟩
        rw [distinctFirstBytes_mk]
        exact distinctChildren_eraseIdx _ i hcs
    · rw [cut_branch_eq pr i parent b hb hleaf]
      refine ⟨?_, rfl⟩
      rw [distinctFirstBytes_mk]
      apply distinctChildren_set _ i b (RadixTreeNode.mk b.key none b.children) hb rfl _ hcs
      rw [distinctFirstBytes_mk, ← distinctFirstBytes_eq]
      exact ((distinctChildren_iff _).1 hcs).2 b hbmem

theorem modifyAt_distinct (f : RadixTreeNode → RadixTreeNode)
    (hf : ∀ m, distinctFirstBytes m = true → everyNode hasLabel m = true →
      distinctFirstBytes (f m) = true ∧ (f m).key.head? = m.key.head?) :
    ∀ (n : RadixTreeNode) (p : List Nat), distinctFirstBytes n = true →
      everyNode hasLabel n = true →
      distinctFirstBytes (modifyAt f n p) = true ∧ (modifyAt f n p).key.head? = n.key.head? := by
  intro n
  induction n using RadixTreeNode.induct with
  | h k c cs ih =>
    intro p hD hL
    cases p with
    | nil => exact hf _ hD hL
    | cons j rest =>
      simp only [modifyAt]
      cases hget : cs[j]? with
      | none => exact ⟨hD, rfl⟩
      | some ch =>
        simp only
        refine ⟨?_, rfl⟩
        have hmem : ch ∈ cs := List.getElem?_mem hget
        rw [distinctFirstBytes_mk] at hD ⊢
        have hLch := (everyChild_iff _ _).1 ((everyNode_iff _ _).1 hL).2 ch hmem
        have hDch := ((distinctChildren_iff _).1 hD).2 ch hmem
        obtain ⟨h1, h2⟩ := ih ch hmem rest hDch hLch
        exact distinctChildren_set cs j ch _ hget h2 h1 hD

theorem delete_key_distinct (t : RadixTreeRoot) (k : ByteSlice)
    (hD : distinctFirstBytes t.node = true) (hL : labelsNonEmpty t = true) :
    distinctFirstBytes (delete_key t k).1.node = true := by
  unfold labelsNonEmpty at hL
  unfold delete_key
  split
  · by_cases hc : t.node.content.isSome = true
    · simp only [hc, if_true, distinctFirstBytes_mk]
      rw [← distinctFirstBytes_eq]
      exact hD
    · simpa [hc] using hD
  · cases hd : delete_key_from k t.node 0 with
    | none => exact hD
    | some pi =>
      obtain ⟨p, i⟩ := pi
      simp only
      cases p with
      | nil =>
        simp only [modifyAt, List.isEmpty_nil]
        exact (cut_distinct true i t.node hD (by simp)).1
      | cons j rest =>
        simp only [List.isEmpty_cons]
        cases hn : t.node with
        | mk rk rc rcs =>
          rw [hn] at hD hL
          simp only [children_mk] at hL
          simp only [modifyAt]
          cases hget : rcs[j]? with
          | none => exact hD
          | some ch =>
            simp only
            have hmem : ch ∈ rcs := List.getElem?_mem hget
            rw [distinctFirstBytes_mk] at hD ⊢
            have hLch := (everyChild_iff _ _).1 hL ch hmem
            have hDch := ((distinctChildren_iff _).1 hD).2 ch hmem
            obtain ⟨h1, h2⟩ := modifyAt_distinct (un_thread_safe_cut_branch false i)
              (fun m hm hl => cut_distinct false i m hm
                (fun _ => by simpa [hasLabel] using ((everyNode_iff _ _).1 hl).1))
              ch rest hDch hLch
            exact distinctChildren_set rcs j ch _ hget h2 h1 hD

/-! ### The stored pairs after a cut -/

theorem keyValuesNode_mk_key (pre k k1 : ByteSlice) (c : Option ByteSlice)
    (cs : List RadixTreeNode) :
    keyValuesNode pre (.mk k c cs) = keyValuesNode pre (.mk k1 c cs) := by
  cases c <;> simp [keyValuesNode]

theorem keyValuesNode_leaf (pre : ByteSlice) (b : RadixTreeNode) (hleaf : b.children = [])
    (x : ByteSlice × ByteSlice) (hx : x ∈ keyValuesNode pre b) : x.1 = pre := by
  rw [keyValuesNode_eq, hleaf] at hx
  simp only [keyValuesChildren, List.append_nil] at hx
  cases hc : b.content with
  | none => simp [hc] at hx
  | some v =>
    simp only [hc, List.mem_singleton] at hx
    rw [hx]

theorem keyValuesChildren_set (pk : ByteSlice) (x : ByteSlice × ByteSlice) (b1 : RadixTreeNode) :
    ∀ (cs : List RadixTreeNode) (i : Nat) (b : RadixTreeNode), cs[i]? = some b →
      (x ∈ keyValuesNode (pk ++ b1.key) b1 ↔ x ∈ keyValuesNode (pk ++ b.key) b) →
      (x ∈ keyValuesChildren pk (cs.set i b1) ↔ x ∈ keyValuesChildren pk cs) := by
  intro cs
  induction cs with
  | nil => intro i b h; simp at h
  | cons a as ih =>
    intro i b hget hiff
    cases i with
    | zero =>
      simp only [List.getElem?_cons_zero, Option.some.injEq] at hget
      subst hget
      simp only [List.set_cons_zero, keyValuesChildren, List.mem_append, hiff]
    | succ i =>
      simp only [List.getElem?_cons_succ] at hget
      simp only [List.set_cons_succ, keyValuesChildren, List.mem_append, ih i b hget hiff]

theorem keyValuesChildren_eraseIdx (pk : ByteSlice) (x : ByteSlice × ByteSlice) :
    ∀ (cs : List RadixTreeNode) (i : Nat) (b : RadixTreeNode), cs[i]? = some b →
      x ∉ keyValuesNode (pk ++ b.key) b →
      (x ∈ keyValuesChildren pk (cs.eraseIdx i) ↔ x ∈ keyValuesChildren pk cs) := by
  intro cs
  induction cs with
  | nil => intro i b h; simp at h
  | cons a as ih =>
    intro i b hget hno
    cases i with
    | zero =>
      simp only [List.getElem?_cons_zero, Option.some.injEq] at hget
      subst hget
      simp only [List.eraseIdx_cons_zero, keyValuesChildren, List.mem_append, hno, false_or]
    | succ i =>
      simp only [List.getElem?_cons_succ] at hget
      simp only [List.eraseIdx_cons_succ, keyValuesChildren, List.mem_append, ih i b hget hno]

theorem cut_key_pfx (pr : Bool) (i : Nat) (parent : RadixTreeNode) :
    parent.key <+: (un_thread_safe_cut_branch pr i parent).key := by
  unfold un_thread_safe_cut_branch
  cases parent.children[i]? with
  | none => exact List.prefix_refl _
  | some b =>
    simp only
    split
    · split
      · split
        · exact List.prefix_refl _
        · exact List.prefix_append _ _
      · exact List.prefix_refl _
    · exact List.prefix_refl _

theorem cut_kv (pr : Bool) (i : Nat) (parent b : RadixTreeNode) (pk : ByteSlice)
    (hb : parent.children[i]? = some b) (x : ByteSlice × ByteSlice)
    (hx : x.1 ≠ pk ++ b.key) :
    x ∈ keyValuesNode
        (pk ++ (un_thread_safe_cut_branch pr i parent).key.drop parent.key.length)
        (un_thread_safe_cut_branch pr i parent) ↔
      x ∈ keyValuesNode pk parent := by
  by_cases hleaf : b.children = []
  · have hno : x ∉ keyValuesNode (pk ++ b.key) b :=
      fun h => hx (keyValuesNode_leaf _ b hleaf x h)
    rw [cut_leaf_eq pr i parent b hb hleaf]
    split
    · rename_i hcond
      obtain ⟨hlen, hnone, _⟩ := hcond
      cases hp : parent with
      | mk k c cs =>
        rw [hp] at hb hlen hnone
        simp only [children_mk, content_mk] at hb hlen hnone ⊢
        have hc : c = none := by
          cases c with
          | none => rfl
          | some v => simp at hnone
        subst hc
        match cs, hlen, hb with
        | [c0, c1], _, hb =>
          cases i with
          | zero =>
            simp only [List.getElem?_cons_zero, Option.some.injEq] at hb
            subst hb
            simp only [if_true, List.getElem?_cons_succ, List.getElem?_cons_zero,
              merge_radix_branches, key_mk, List.drop_left]
            rw [keyValuesNode_mk_key _ _ c1.key, keyValuesNode]
            simp only [keyValuesChildren, List.mem_append, hno, false_or, List.append_nil]
            cases c1 with
            | mk k1 cc1 cs1 => rfl
          | succ i =>
            cases i with
            | zero =>
              simp only [List.getElem?_cons_succ, List.getElem?_cons_zero,
                Option.some.injEq] at hb
              subst hb
              simp only [Nat.succ_ne_zero, if_false, List.getElem?_cons_zero,
                merge_radix_branches, key_mk, List.drop_left]
              rw [keyValuesNode_mk_key _ _ c0.key, keyValuesNode]
              simp only [keyValuesChildren, List.mem_append, hno, or_false, List.append_nil]
              cases c0 with
              | mk k0 cc0 cs0 => rfl
            | succ i => simp at hb
    · simp only [key_mk, List.drop_length, List.append_nil]
      rw [keyValuesNode_eq, keyValuesNode_eq pk parent]
      simp only [content_mk, children_mk, List.mem_append,
        keyValuesChildren_eraseIdx pk x parent.children i b hb hno]
  · rw [cut_branch_eq pr i parent b hb hleaf]
    simp only [key_mk, List.drop_length, List.append_nil]
    rw [keyValuesNode_eq, keyValuesNode_eq pk parent]
    have hiff : x ∈ keyValuesNode (pk ++ (RadixTreeNode.mk b.key none b.children).key)
          (RadixTreeNode.mk b.key none b.children) ↔
        x ∈ keyValuesNode (pk ++ b.key) b := by
      rw [keyValuesNode_eq, keyValuesNode_eq (pk ++ b.key) b]
      simp only [key_mk, content_mk, children_mk, List.nil_append, List.mem_append]
      constructor
      · intro h; exact Or.inr h
      · rintro (h | h)
        · cases hc : b.content with
          | none => simp [hc] at h
          | some v =>
            simp only [hc, List.mem_singleton] at h
            exact absurd (by rw [h]) hx
        · exact h
    simp only [content_mk, children_mk, List.mem_append,
      keyValuesChildren_set pk x _ parent.children i b hb hiff]

theorem pathKey_append (i : Nat) (b : RadixTreeNode) :
    ∀ (n : RadixTreeNode) (p : List Nat) (m : RadixTreeNode), nodeAt n p = some m →
      m.children[i]? = some b → pathKey n (p ++ [i]) = pathKey n p ++ b.key := by
  intro n
  induction n using RadixTreeNode.induct with
  | h k c cs ih =>
    intro p m hm hb
    cases p with
    | nil =>
      simp only [nodeAt, Option.some.injEq] at hm
      subst hm
      simp only [children_mk] at hb
      simp [pathKey, hb]
    | cons j rest =>
      simp only [nodeAt] at hm
      cases hget : cs[j]? with
      | none => simp [hget] at hm
      | some ch =>
        simp only [hget] at hm
        have h1 := ih ch (List.getElem?_mem hget) rest m hm hb
        simp only [List.cons_append, pathKey, hget]
        show ch.key ++ pathKey ch (rest ++ [i]) = ch.key ++ pathKey ch rest ++ b.key
        rw [h1, List.append_assoc]

theorem kv_modifyAt (f : RadixTreeNode → RadixTreeNode) (x : ByteSlice × ByteSlice)
    (hpfx : ∀ m, m.key <+: (f m).key) :
    ∀ (n : RadixTreeNode) (p : List Nat) (pk : ByteSlice),
      (∀ m, nodeAt n p = some m →
        (x ∈ keyValuesNode (pk ++ pathKey n p ++ (f m).key.drop m.key.length) (f m) ↔
          x ∈ keyValuesNode (pk ++ pathKey n p) m)) →
      n.key <+: (modifyAt f n p).key ∧
      (x ∈ keyValuesNode (pk ++ (modifyAt f n p).key.drop n.key.length) (modifyAt f n p) ↔
        x ∈ keyValuesNode pk n) := by
  intro n
  induction n using RadixTreeNode.induct with
  | h k c cs ih =>
    intro p pk hf
    cases p with
    | nil =>
      refine ⟨hpfx _, ?_⟩
      have := hf _ rfl
      simpa [pathKey, modifyAt] using this
    | cons j rest =>
      simp only [modifyAt]
      cases hget : cs[j]? with
      | none =>
        refine ⟨List.prefix_refl _, ?_⟩
        simp only [key_mk, List.drop_length, List.append_nil]
      | some ch =>
        refine ⟨List.prefix_refl _, ?_⟩
        simp only [key_mk, List.drop_length, List.append_nil]
        have hmem : ch ∈ cs := List.getElem?_mem hget
        obtain ⟨h1, h2⟩ := ih ch hmem rest (pk ++ ch.key) (by
          intro m hm
          have := hf m (by simp only [nodeAt, hget]; exact hm)
          simpa [pathKey, hget, List.append_assoc] using this)
        have hkey : (modifyAt f ch rest).key =
            ch.key ++ (modifyAt f ch rest).key.drop ch.key.length := by
          obtain ⟨t, ht⟩ := h1
          rw [← ht]
          simp
        have hiff : x ∈ keyValuesNode (pk ++ (modifyAt f ch rest).key) (modifyAt f ch rest) ↔
            x ∈ keyValuesNode (pk ++ ch.key) ch := by
          rw [← h2]
          rw [List.append_assoc, ← hkey]
        rw [keyValuesNode_eq, keyValuesNode_eq pk (RadixTreeNode.mk k c cs)]
        simp only [content_mk, children_mk, List.mem_append,
          keyValuesChildren_set pk x _ cs j ch hget hiff]

theorem delete_key_children_same (key : ByteSlice) :
    ∀ (cs : List RadixTreeNode),
      (∀ ch ∈ cs, ∀ ki p j, ki < key.length → delete_key_from key ch ki = some (p, j) →
        get_node_from key false ch ki = ⟨key.length, p ++ [j]⟩) →
      ∀ (i ki : Nat) (p : List Nat) (j : Nat), delete_key_children key cs i ki = some (p, j) →
        get_node_children key false cs i ki = ⟨key.length, p ++ [j]⟩ := by
  intro cs
  induction cs with
  | nil => intro _ i ki p j h; simp [delete_key_children] at h
  | cons child rest ihr =>
    intro ih i ki p j h
    have hskip := ihr (fun ch hch => ih ch (List.mem_cons_of_mem _ hch)) (i + 1) ki p j
    rw [delete_key_children] at h
    rw [get_node_children]
    split
    · rename_i hlen
      simp only [hlen, if_true] at h
      split
      · rename_i hm
        simp only [hm, if_true] at h
        split at h
        · rename_i heq
          simp only [Option.some.injEq, Prod.mk.injEq] at h
          obtain ⟨hp, hj⟩ := h
          subst hp
          subst hj
          rw [get_node_from_ge key false child _ (by omega)]
          simp [heq]
        · rename_i hne
          cases hd : delete_key_from key child (ki + child.key.length) with
          | none => simp [hd] at h
          | some qj =>
            obtain ⟨q, j1⟩ := qj
            simp only [hd, Option.some.injEq, Prod.mk.injEq] at h
            obtain ⟨hp, hj⟩ := h
            subst hp
            subst hj
            rw [ih child (List.mem_cons_self _ _) _ q j1 (by omega) hd]
            simp
      · rename_i hm
        simp only [hm, Bool.false_eq_true, if_false] at h
        exact hskip h
    · rename_i hlen
      simp only [hlen, if_false] at h
      simpa using hskip h

theorem delete_key_from_same (key : ByteSlice) :
    ∀ (n : RadixTreeNode) (ki : Nat) (p : List Nat) (j : Nat), ki < key.length →
      delete_key_from key n ki = some (p, j) →
      get_node_from key false n ki = ⟨key.length, p ++ [j]⟩ := by
  intro n
  induction n using RadixTreeNode.induct with
  | h k c cs ih =>
    intro ki p j hki h
    rw [delete_key_from] at h
    rw [get_node_from]
    simp only [ge_iff_le, Nat.not_le.2 hki, if_false]
    exact delete_key_children_same key cs ih 0 ki p j h

theorem delete_key_path_key (t : RadixTreeRoot) (k : ByteSlice) (p : List Nat) (i : Nat)
    (hk : k.length ≠ 0) (hd : delete_key_from k t.node 0 = some (p, i)) :
    pathKey t.node (p ++ [i]) = k := by
  have hsame := delete_key_from_same k t.node 0 p i (Nat.pos_of_ne_zero hk) hd
  have hok := get_node_from_ok k false t.node 0
  rw [hsame] at hok
  obtain ⟨_, h2, h3⟩ := hok
  simp only [Nat.zero_add] at h2
  rcases h3 with h3 | ⟨h3, _⟩
  · simp only [List.drop_zero] at h3
    exact h3.eq_of_length h2.symm
  · simp at h3

theorem kv_delete_key (t : RadixTreeRoot) (k : ByteSlice) (x : ByteSlice × ByteSlice)
    (hx : x.1 ≠ k) : x ∈ keyValues (delete_key t k).1 ↔ x ∈ keyValues t := by
  unfold keyValues delete_key
  split
  · rename_i h0
    have hk : k = [] := List.length_eq_zero.1 h0
    by_cases hc : t.node.content.isSome = true
    · simp only [hc, if_true]
      rw [keyValuesNode_eq, keyValuesNode_eq [] t.node]
      simp only [content_mk, children_mk, List.nil_append, List.mem_append]
      constructor
      · intro h; exact Or.inr h
      · rintro (h | h)
        · cases hcv : t.node.content with
          | none => simp [hcv] at h
          | some v =>
            simp only [hcv, List.mem_singleton] at h
            exact absurd (by rw [h, hk]) hx
        · exact h
    · simp [hc]
  · rename_i hk
    cases hd : delete_key_from k t.node 0 with
    | none => exact Iff.rfl
    | some pi =>
      obtain ⟨p, i⟩ := pi
      have hpath := delete_key_path_key t k p i hk hd
      simp only
      have hkv := kv_modifyAt (un_thread_safe_cut_branch p.isEmpty i) x
        (fun m => cut_key_pfx p.isEmpty i m) t.node p [] (by
          intro m hm
          cases hb : m.children[i]? with
          | none =>
            rw [cut_none_eq _ i m hb]
            simp
          | some b =>
            apply cut_kv p.isEmpty i m b _ hb x
            rw [List.nil_append, ← pathKey_append i b t.node p m hm hb, hpath]
            exact hx)
      have hkey : (modifyAt (un_thread_safe_cut_branch p.isEmpty i) t.node p).key =
          t.node.key := by
        cases p with
        | nil =>
          simp only [modifyAt, List.isEmpty_nil]
          exact (cut_root_fields i t.node).1
        | cons j rest => exact (modifyAt_cons_fields _ t.node j rest).1
      rw [hkey] at hkv
      simpa using hkv.2

theorem get_delete_key_other (t : RadixTreeRoot) (k k1 : ByteSlice)
    (hL : labelsNonEmpty t = true) (hD : distinctFirstBytes t.node = true) (hne : k1 ≠ k) :
    get (delete_key t k).1 k1 = get t k1 := by
  have hL2 := delete_key_labels t k hL
  have hD2 := delete_key_distinct t k hD hL
  apply Option.ext
  intro v
  simp only [Option.mem_def]
  rw [get_iff_keyValues _ k1 v hL2 hD2, get_iff_keyValues t k1 v hL hD]
  exact kv_delete_key t k (k1, v) hne

theorem keyValuesNode_length :
    ∀ (n : RadixTreeNode) (pre : ByteSlice), (keyValuesNode pre n).length = valueCountNode n := by
  intro n
  induction n using RadixTreeNode.induct with
  | h k c cs ih =>
    have hcs : ∀ pre, (keyValuesChildren pre cs).length = valueCountChildren cs := by
      intro pre
      induction cs with
      | nil => rfl
      | cons d ds ihd =>
        simp only [keyValuesChildren, valueCountChildren, List.length_append]
        rw [ih d (List.mem_cons_self _ _), ihd (fun ch hch => ih ch (List.mem_cons_of_mem _ hch))]
    intro pre
    cases c with
    | none => simp [keyValuesNode, valueCountNode, hcs]
    | some v => simp [keyValuesNode, valueCountNode, hcs, Nat.add_comm]

/-! ## The claims, third group -/

/-- C22: if every valueless node other than the dummy root has at least two
children and the node that `delete_key(k)` cuts has no children, then the same
holds of the tree after the call, the dummy root keeps its label, and for a
non-empty key it keeps its value. -/
theorem C22_leaf_delete_keeps_minimal (t : RadixTreeRoot) (k : ByteSlice)
    (hmin : minimalTree t = true) (hleaf : cutsLeaf t k = true) :
    minimalTree (delete_key t k).1 = true ∧
    (delete_key t k).1.node.key = t.node.key ∧
    (k ≠ [] → (delete_key t k).1.node.content = t.node.content) :=
  ⟨delete_key_minimal t k hmin hleaf, delete_key_root_fields t k⟩

/-- Witness for C22: deleting the leaf `romanus`, whose parent `an` is merged
with the remaining child `e`. -/
theorem C22_leaf_delete_keeps_minimal_witness :
    minimalTree (delete_key treeRom (bytes "romanus")).1 = true :=
  (C22_leaf_delete_keeps_minimal treeRom (bytes "romanus") (by decide) (by decide)).1

/-- C23: in every tree reached from the empty tree by `set` and `delete_key`
calls, every node other than the dummy root has a label of at least one byte;
and whenever the strict search for a key stops short in such a tree, a child of
the node it stops at that shares `common > 0` bytes with the rest of the key has
a label longer than `common`, so `set` splits strictly inside the label. -/
theorem C23_labels_non_empty (ops : List Op) :
    labelsNonEmpty (runOps .empty ops) = true ∧
    ∀ (key : ByteSlice) (n : RadixTreeNode),
      nodeAt (runOps .empty ops).node
          (un_thread_safe_get_node (runOps .empty ops) key false).node = some n →
      (un_thread_safe_get_node (runOps .empty ops) key false).key_index ≠ key.length →
      ∀ ch ∈ n.children,
        common_len
            (key.drop (un_thread_safe_get_node (runOps .empty ops) key false).key_index)
            ch.key ≠ 0 →
        0 < common_len
            (key.drop (un_thread_safe_get_node (runOps .empty ops) key false).key_index)
            ch.key ∧
        common_len
            (key.drop (un_thread_safe_get_node (runOps .empty ops) key false).key_index)
            ch.key < ch.key.length := by
  refine ⟨runOps_labels ops .empty rfl, ?_⟩
  intro key n hn hne ch hch hc
  have hle := un_thread_safe_get_node_le (runOps .empty ops) key
  obtain ⟨m, hm, hstop⟩ := un_thread_safe_get_node_stop (runOps .empty ops) key (by omega)
  rw [hn] at hm
  cases hm
  refine ⟨Nat.pos_of_ne_zero hc, ?_⟩
  have h1 := common_len_le_right
    (key.drop (un_thread_safe_get_node (runOps .empty ops) key false).key_index) ch.key
  rcases Nat.lt_or_ge (common_len
    (key.drop (un_thread_safe_get_node (runOps .empty ops) key false).key_index) ch.key)
    ch.key.length with h2 | h2
  · exact h2
  · exact absurd (common_len_eq_length_right _ _ (by omega)) (hstop ch hch)

/-- C24 (fails on the code): on the tree built by `set("ab")`, `set("abcd")`, the
call `set("abce","3")` makes `get("abcbce")`, absent before, return `3`. -/
theorem C24_set_changes_other_key :
    bytes "abcbce" ≠ bytes "abce" ∧
    get treeAbAbcd (bytes "abcbce") = none ∧
    get (set treeAbAbcd (bytes "abce") (bytes "3")).1 (bytes "abcbce") = some (bytes "3") := by
  decide

/-- C25: for every tree whose nodes other than the dummy root have non-empty
labels and whose sibling labels differ in their first byte, and for every key
`k1` other than `k`, `get(k1)` after `delete_key(k)` equals `get(k1)` before it. -/
theorem C25_delete_key_frame (t : RadixTreeRoot) (k k1 : ByteSlice)
    (hL : labelsNonEmpty t = true) (hD : distinctFirstBytes t.node = true) (hne : k1 ≠ k) :
    get (delete_key t k).1 k1 = get t k1 :=
  get_delete_key_other t k k1 hL hD hne

/-- Witness for C25: `get("romane")` across `delete_key("romanus")`, where the
parent `an` of the deleted leaf is merged with its remaining child `e`. -/
theorem C25_delete_key_frame_witness :
    get (delete_key treeRom (bytes "romanus")).1 (bytes "romane") =
      get treeRom (bytes "romane") :=
  C25_delete_key_frame treeRom (bytes "romanus") (bytes "romane") (by decide) (by decide)
    (by decide)

end HyperCache
